import Mathlib

/-!
Verification of the course-prerequisite planning service.

The repository is a Python/FastAPI service over a Neo4j graph database.
This file gives a shallow embedding of its data model and of the operations
referenced by the claims:

* the graph data (Course nodes, PRE_REQUIRES / HAS_COMPLETED / ENROLLED_IN /
  REQUIRED_FOR / OFFERED_IN relationships) as lists of codes and edge pairs;
* each Cypher query as the function on that data which the query denotes;
* each Python service function as a Lean function, translated clause by
  clause from `src/backend/services/...` and `src/scripts/seed_data.py`.

Strings are compared lexicographically by code point (`strLe`), matching
Python's `sorted` and Cypher's `ORDER BY` on ASCII course codes.
-/

/-! ## Generic list helpers -/

/-- Lexicographic comparison of char lists by code point, the order Python's
`sorted` and Cypher's `ORDER BY` use on ASCII strings. -/
def charListLe : List Char → List Char → Bool
  | [], _ => true
  | _ :: _, [] => false
  | a :: as, b :: bs =>
    if a.toNat < b.toNat then true
    else if b.toNat < a.toNat then false
    else charListLe as bs

/-- String comparison by code points. -/
def strLe (s t : String) : Bool := charListLe s.data t.data

theorem charListLe_total : ∀ a b, charListLe a b = true ∨ charListLe b a = true := by
  intro a
  induction a with
  | nil => intro b; left; rfl
  | cons x xs ih =>
    intro b
    cases b with
    | nil => right; rfl
    | cons y ys =>
      by_cases hxy : x.toNat < y.toNat
      · left; simp [charListLe, hxy]
      · by_cases hyx : y.toNat < x.toNat
        · right; simp [charListLe, hyx]
        · rcases ih ys with h | h
          · left; simp [charListLe, hxy, hyx, h]
          · right; simp [charListLe, hxy, hyx, h]

theorem charListLe_trans :
    ∀ a b c, charListLe a b = true → charListLe b c = true → charListLe a c = true := by
  intro a
  induction a with
  | nil => intro b c _ _; rfl
  | cons x xs ih =>
    intro b c hab hbc
    cases b with
    | nil => simp [charListLe] at hab
    | cons y ys =>
      cases c with
      | nil => simp [charListLe] at hbc
      | cons z zs =>
        simp only [charListLe] at hab hbc ⊢
        by_cases hxy : x.toNat < y.toNat
        · by_cases hyz : y.toNat < z.toNat
          · simp [Nat.lt_trans hxy hyz]
          · by_cases hzy : z.toNat < y.toNat
            · simp [charListLe, hyz, hzy] at hbc
            · have : y.toNat = z.toNat := Nat.le_antisymm (Nat.le_of_not_lt hzy) (Nat.le_of_not_lt hyz)
              simp [this ▸ hxy]
        · by_cases hyx : y.toNat < x.toNat
          · simp [hxy, hyx] at hab
          · have hxy' : x.toNat = y.toNat := Nat.le_antisymm (Nat.le_of_not_lt hyx) (Nat.le_of_not_lt hxy)
            simp only [hxy, hyx, if_neg, ite_false] at hab
            by_cases hyz : y.toNat < z.toNat
            · simp [hxy' ▸ hyz]
            · by_cases hzy : z.toNat < y.toNat
              · simp [hyz, hzy] at hbc
              · simp only [hyz, hzy, if_neg, ite_false] at hbc
                have h1 : ¬ x.toNat < z.toNat := by omega
                have h2 : ¬ z.toNat < x.toNat := by omega
                simp [h1, h2, ih ys zs hab hbc]

theorem strLe_total (s t : String) : strLe s t = true ∨ strLe t s = true :=
  charListLe_total s.data t.data

theorem strLe_trans {a b c : String} (h1 : strLe a b = true) (h2 : strLe b c = true) :
    strLe a c = true :=
  charListLe_trans a.data b.data c.data h1 h2

/-- Insertion into a sorted list (used to model Python `sorted` / Cypher
`ORDER BY`; structural so that concrete instances compute). -/
def insertBy {α : Type} (le : α → α → Bool) (x : α) : List α → List α
  | [] => [x]
  | y :: ys => if le x y then x :: y :: ys else y :: insertBy le x ys

/-- Insertion sort with comparator `le`. -/
def sortBy {α : Type} (le : α → α → Bool) : List α → List α
  | [] => []
  | x :: xs => insertBy le x (sortBy le xs)

theorem perm_insertBy {α : Type} (le : α → α → Bool) (x : α) (l : List α) :
    (insertBy le x l).Perm (x :: l) := by
  induction l with
  | nil => exact List.Perm.refl _
  | cons y ys ih =>
    by_cases h : le x y
    · simp [insertBy, h]
    · simp only [insertBy, h, ite_false]
      exact (ih.cons y).trans (List.Perm.swap x y ys)

theorem perm_sortBy {α : Type} (le : α → α → Bool) (l : List α) :
    (sortBy le l).Perm l := by
  induction l with
  | nil => exact List.Perm.refl _
  | cons x xs ih =>
    exact (perm_insertBy le x (sortBy le xs)).trans (ih.cons x)

theorem mem_sortBy {α : Type} (le : α → α → Bool) (l : List α) (a : α) :
    a ∈ sortBy le l ↔ a ∈ l :=
  (perm_sortBy le l).mem_iff

theorem sorted_insertBy {α : Type} (le : α → α → Bool)
    (htrans : ∀ a b c, le a b = true → le b c = true → le a c = true)
    (htot : ∀ a b, le a b = true ∨ le b a = true)
    (x : α) (l : List α) (hl : l.Pairwise (fun a b => le a b = true)) :
    (insertBy le x l).Pairwise (fun a b => le a b = true) := by
  induction l with
  | nil => simp [insertBy]
  | cons y ys ih =>
    rcases List.pairwise_cons.mp hl with ⟨hy, hys⟩
    by_cases h : le x y
    · simp only [insertBy, h, ite_true]
      refine List.pairwise_cons.mpr ⟨?_, hl⟩
      intro z hz
      rcases hz with _ | hz
      · exact h
      · exact htrans _ _ _ h (hy _ (by assumption))
    · simp only [insertBy, h, ite_false]
      refine List.pairwise_cons.mpr ⟨?_, ih hys⟩
      intro z hz
      have hyx : le y x = true := by
        rcases htot x y with h' | h'
        · exact absurd h' h
        · exact h'
      rcases List.mem_cons.mp ((perm_insertBy le x ys).mem_iff.mp hz) with rfl | hzys
      · exact hyx
      · exact hy _ hzys

theorem sorted_sortBy {α : Type} (le : α → α → Bool)
    (htrans : ∀ a b c, le a b = true → le b c = true → le a c = true)
    (htot : ∀ a b, le a b = true ∨ le b a = true)
    (l : List α) : (sortBy le l).Pairwise (fun a b => le a b = true) := by
  induction l with
  | nil => simp [sortBy]
  | cons x xs ih => exact sorted_insertBy le htrans htot x (sortBy le xs) ih

/-- Sort a list of strings alphabetically (code-point order). -/
def sortStrings (l : List String) : List String := sortBy strLe l

theorem sorted_sortStrings (l : List String) :
    (sortStrings l).Pairwise (fun a b => strLe a b = true) :=
  sorted_sortBy strLe (fun _ _ _ => charListLe_trans _ _ _) strLe_total l

theorem mem_sortStrings (l : List String) (a : String) : a ∈ sortStrings l ↔ a ∈ l :=
  mem_sortBy strLe l a

theorem nodup_sortStrings (l : List String) (h : l.Nodup) : (sortStrings l).Nodup :=
  h.perm (perm_sortBy strLe l).symm

/-- De-duplicate keeping the first occurrence of each element, the behaviour
of Python's dict construction and of the seeder's in-row de-duplication. -/
def dedupFirst : List String → List String
  | [] => []
  | x :: xs => x :: (dedupFirst xs).filter (fun y => y ≠ x)

theorem mem_dedupFirst (l : List String) (a : String) : a ∈ dedupFirst l ↔ a ∈ l := by
  induction l with
  | nil => simp [dedupFirst]
  | cons x xs ih =>
    simp only [dedupFirst, List.mem_cons, List.mem_filter]
    constructor
    · rintro (rfl | ⟨h, _⟩)
      · exact Or.inl rfl
      · exact Or.inr (ih.mp h)
    · rintro (rfl | h)
      · exact Or.inl rfl
      · by_cases hax : a = x
        · exact Or.inl hax
        · exact Or.inr ⟨ih.mpr h, by simp [hax]⟩

theorem nodup_dedupFirst (l : List String) : (dedupFirst l).Nodup := by
  induction l with
  | nil => simp [dedupFirst]
  | cons x xs ih =>
    refine List.nodup_cons.mpr ⟨?_, ih.filter _⟩
    intro hx
    have := (List.mem_filter.mp hx).2
    simp at this

/-! ## The graph database

State of the Neo4j database as read by the services.  Relationship lists hold
ordered pairs in the direction of the stored edge:
`prereqEdges` holds `(p, c)` for `(p:Course)-[:PRE_REQUIRES]->(c:Course)`
(the orientation `scripts/seed_data.py` creates: from a prerequisite to the
course that requires it); `hasCompleted` holds `(s, c)` for
`(s:Student)-[:HAS_COMPLETED]->(c:Course)`; `enrolledIn` holds `(s, d)`;
`requiredFor` holds `(c, d)` for `(c:Course)-[:REQUIRED_FOR]->(d:Degree)`;
`offeredIn` holds `(c, sem)`.  Students carry two coexisting identity
properties in this repository: `students` lists the values of the
`student_id` property, `studentsById` the values of the `id` property used by
the schedule-optimizer and advanced-queries flows.  All edges join existing
nodes (they are MERGE-created between matched nodes by the seeders). -/
structure GraphDB where
  courses : List String
  courseNames : List (String × String)
  courseCredits : List (String × Int)
  prereqEdges : List (String × String)
  students : List String
  studentsById : List String
  hasCompleted : List (String × String)
  enrolledIn : List (String × String)
  requiredFor : List (String × String)
  offeredIn : List (String × String)
deriving DecidableEq

namespace GraphDB

/-- Successors of `x` along stored PRE_REQUIRES edges
(the courses `y` with `(x)-[:PRE_REQUIRES]->(y)`). -/
def succs (db : GraphDB) (x : String) : List String :=
  (db.prereqEdges.filter (fun e => e.1 = x)).map (fun e => e.2)

/-- Predecessors of `x` along stored PRE_REQUIRES edges
(the courses `p` with `(p)-[:PRE_REQUIRES]->(x)`). -/
def preds (db : GraphDB) (x : String) : List String :=
  (db.prereqEdges.filter (fun e => e.2 = x)).map (fun e => e.1)

/-- One expansion step: all PRE_REQUIRES-successors of a list of nodes. -/
def succStep (db : GraphDB) (frontier : List String) : List String :=
  dedupFirst (frontier.flatMap db.succs)

/-- Nodes reachable from `start` by following PRE_REQUIRES edges forward in
exactly `n` hops (as sets; walks of length `n`). -/
def hopFrom (db : GraphDB) (start : String) : Nat → List String
  | 0 => [start]
  | n + 1 => succStep db (hopFrom db start n)

/-- Nodes reachable from `start` in 1 to `k` forward hops: the denotation of
the variable-length pattern `(start)-[:PRE_REQUIRES*1..k]->(p)` (a node is on
some trail of length 1..k iff it is on some walk of length 1..k). -/
def reachTo (db : GraphDB) (start : String) (k : Nat) : List String :=
  dedupFirst ((List.range k).flatMap (fun i => hopFrom db start (i + 1)))

end GraphDB

/-! ## Claim C1 — `get_direct_prerequisites` and the seeded edge orientation

`backend/services/prerequisites.py` (lines 13-30):

    MATCH (c:Course {code: $code})-[:PRE_REQUIRES]->(p:Course)
    RETURN p.code AS code
    ORDER BY code

The pattern follows the edge *out of* the given course, so it returns the
courses `p` with a stored edge `(code, p)`.  `scripts/seed_data.py` creates
every PRE_REQUIRES edge as `(prereq)-[:PRE_REQUIRES]->(course)`. -/

/-- `get_direct_prerequisites` of `prerequisites.py`: codes `p` with a stored
edge from `course_code` to `p`, sorted by the `ORDER BY code` clause; empty
when the course node does not exist (the MATCH finds no row). -/
def getDirectPrerequisites (db : GraphDB) (course_code : String) : List String :=
  if course_code ∈ db.courses then
    sortStrings (db.succs course_code)
  else []

/-- `parse_prereqs_row` of `scripts/seed_data.py`: read `count` numbered
cells, drop blanks, de-duplicate preserving first-seen order. -/
def parsePrereqsRow (count : Nat) (cells : List String) : List String :=
  dedupFirst ((cells.take count).filter (fun c => c ≠ ""))

/-- The PRE_REQUIRES edges `import_courses_from_csv` creates for one CSV row:
for each parsed prerequisite code, an edge from the prerequisite to the
row's course (`MERGE (p)-[:PRE_REQUIRES]->(c)`). -/
def seedRowEdges (course_code : String) (count : Nat) (cells : List String) :
    List (String × String) :=
  (parsePrereqsRow count cells).map (fun p => (p, course_code))

/-- The database obtained by seeding the single CSV row `CS 200,1,MATH 100`:
both courses merge-created, and the edge `(MATH 100)-[:PRE_REQUIRES]->(CS 200)`. -/
def seededDb : GraphDB :=
  { courses := ["CS 200", "MATH 100"]
    courseNames := [("CS 200", "CS 200"), ("MATH 100", "MATH 100")]
    courseCredits := []
    prereqEdges := seedRowEdges "CS 200" 1 ["MATH 100"]
    students := []
    studentsById := []
    hasCompleted := []
    enrolledIn := []
    requiredFor := []
    offeredIn := [] }

/-- Claim C1 (code bug): on the database seeded from the row `CS 200,1,MATH 100`
the seeder stores the edge `(MATH 100)-[:PRE_REQUIRES]->(CS 200)`, so the one
course one hop upstream of `CS 200` is `MATH 100`; but
`get_direct_prerequisites` follows the edge in the opposite direction and
returns `[]` for `CS 200` — and returns `["CS 200"]` (its dependent) for
`MATH 100`.  The claimed value for `CS 200` is `["MATH 100"]`. -/
theorem c1_direction_bug :
    seededDb.prereqEdges = [("MATH 100", "CS 200")] ∧
    getDirectPrerequisites seededDb "CS 200" = [] ∧
    getDirectPrerequisites seededDb "MATH 100" = ["CS 200"] ∧
    getDirectPrerequisites seededDb "CS 200" ≠ ["MATH 100"] := by
  refine ⟨rfl, by decide, by decide, by decide⟩

/-! ## Claim C2 — the four advanced routes call missing service methods

`backend/services/advanced_queries_service.py` defines exactly four public
query methods on `AdvancedQueriesService`; `backend/routes/advanced_queries.py`
wraps each handler body in `try: service.<method>(...) ... except Exception:
raise HTTPException(status_code=500, ...)`.  Python attribute lookup of an
undefined method raises `AttributeError`, which that handler catches. -/

/-- The methods defined on `AdvancedQueriesService`
(`advanced_queries_service.py`, class body lines 16-532). -/
def advancedServiceMethods : List String :=
  ["get_deep_prerequisite_chain",
   "get_next_courses_with_analysis",
   "analyze_course_difficulty_and_impact",
   "compare_student_progress"]

/-- Outcome of one HTTP handler: a 200 body with its top-level JSON keys, or
an error status. -/
inductive RouteOutcome where
  | ok (keys : List String)
  | httpError (status : Nat)
deriving DecidableEq

/-- Calling `service.<method>(...)` inside the handler's `try` block: if the
method exists on the class the call proceeds and the handler returns the
documented keys; otherwise Python raises `AttributeError`, caught by the
`except Exception` clause which raises HTTP 500. -/
def callAdvancedService (method : String) (okKeys : List String) : RouteOutcome :=
  if method ∈ advancedServiceMethods then .ok okKeys else .httpError 500

/-- Handler of GET `/api/advanced/bottleneck-courses`
(`routes/advanced_queries.py` lines 32-56): calls
`service.find_bottleneck_courses(...)`. -/
def routeBottleneckCourses : RouteOutcome :=
  callAdvancedService "find_bottleneck_courses"
    ["bottleneck_courses", "total_found", "filters"]

/-- Handler of GET `/api/advanced/students/{id}/recommendations`
(lines 78-99): calls `service.get_course_recommendations(...)` and returns
its result as the body. -/
def routeRecommendations : RouteOutcome :=
  callAdvancedService "get_course_recommendations"
    ["recommendations", "total_recommendations"]

/-- Handler of GET `/api/advanced/students/{id}/course-depth`
(lines 124-140): calls `service.get_courses_by_prerequisite_depth(...)`. -/
def routeCourseDepth : RouteOutcome :=
  callAdvancedService "get_courses_by_prerequisite_depth"
    ["courses_by_status", "total_remaining"]

/-- Handler of GET `/api/advanced/students/{id}/summary` (lines 155-190):
calls `service.get_course_recommendations(...)` and then
`service.get_courses_by_prerequisite_depth(...)`; the first missing attribute
already raises. -/
def routeSummary : RouteOutcome :=
  if "get_course_recommendations" ∈ advancedServiceMethods ∧
     "get_courses_by_prerequisite_depth" ∈ advancedServiceMethods then
    .ok ["student_id", "student_name", "program", "completed_courses",
         "next_semester", "remaining_courses"]
  else .httpError 500

/-- Claim C2 (code bug): none of the three service methods the four
`/api/advanced` routes invoke exists on `AdvancedQueriesService`, so every
request to any of these routes — however well-formed, whatever the database
holds — takes the 500 error branch instead of returning HTTP 200. -/
theorem c2_routes_hit_500 :
    ("find_bottleneck_courses" ∉ advancedServiceMethods ∧
     "get_course_recommendations" ∉ advancedServiceMethods ∧
     "get_courses_by_prerequisite_depth" ∉ advancedServiceMethods) ∧
    routeBottleneckCourses = .httpError 500 ∧
    routeRecommendations = .httpError 500 ∧
    routeCourseDepth = .httpError 500 ∧
    routeSummary = .httpError 500 := by
  decide

/-! ## Claim C5 — `check_student_can_take` (`prerequisites.py` lines 78-154)

One aggregated Cypher query returns, when the course node exists, a single
row with the course's transitive prerequisites (`*1..10`, DISTINCT), the
student's completed courses (DISTINCT; `[]` when the OPTIONAL student match
is null) and a `student_exists` flag; no row at all when the course does not
exist.  The Python function then branches on those values. -/

namespace GraphDB

/-- Completed courses of a student keyed by `student_id`:
`collect(DISTINCT done.code)` over `(s)-[:HAS_COMPLETED]->(done)`. -/
def completedCourses (db : GraphDB) (student_id : String) : List String :=
  dedupFirst ((db.hasCompleted.filter (fun e => e.1 = student_id)).map (fun e => e.2))

end GraphDB

/-- Result dictionary of `check_student_can_take`. -/
structure CanTakeResult where
  student_id : String
  course : String
  required : List String
  completed : List String
  missing : List String
  can_take : Bool
  reason : String
deriving DecidableEq

/-- `check_student_can_take` of `prerequisites.py`. -/
def checkStudentCanTake (db : GraphDB) (student_id course_code : String) : CanTakeResult :=
  if course_code ∈ db.courses then
    let required := db.reachTo course_code 10
    if student_id ∈ db.students then
      let completed := db.completedCourses student_id
      let missing := sortStrings ((dedupFirst required).filter (fun x => decide (¬ x ∈ completed)))
      { student_id := student_id, course := course_code, required := required,
        completed := completed, missing := missing,
        can_take := decide (missing = []),
        reason := if missing = [] then "ok" else "missing_prerequisites" }
    else
      { student_id := student_id, course := course_code, required := required,
        completed := [], missing := required, can_take := false,
        reason := "student_not_found" }
  else
    { student_id := student_id, course := course_code, required := [],
      completed := [], missing := [], can_take := false,
      reason := "course_not_found" }

/-- Claim C5: the `reason` field is one of the four documented codes; a
missing course yields empty `required`/`completed` and `can_take = false`; a
missing student yields `missing = required` and `can_take = false`; otherwise
`missing` is the alphabetically sorted, duplicate-free difference
required − completed, and `can_take` is true with reason `ok` exactly when
`missing` is empty. -/
theorem c5_check_student_can_take (db : GraphDB) (sid code : String) (r : CanTakeResult)
    (hr : r = checkStudentCanTake db sid code) :
    (r.reason = "course_not_found" ∨ r.reason = "student_not_found" ∨
     r.reason = "ok" ∨ r.reason = "missing_prerequisites") ∧
    (¬ code ∈ db.courses →
       r.required = [] ∧ r.completed = [] ∧ r.can_take = false ∧
       r.reason = "course_not_found") ∧
    (code ∈ db.courses → ¬ sid ∈ db.students →
       r.missing = r.required ∧ r.can_take = false ∧ r.reason = "student_not_found") ∧
    (code ∈ db.courses → sid ∈ db.students →
       (∀ x, x ∈ r.missing ↔ (x ∈ r.required ∧ ¬ x ∈ r.completed)) ∧
       r.missing.Pairwise (fun a b => strLe a b = true) ∧
       r.missing.Nodup ∧
       ((r.can_take = true ∧ r.reason = "ok") ↔ r.missing = [])) := by
  by_cases hc : code ∈ db.courses
  · by_cases hs : sid ∈ db.students
    · simp only [checkStudentCanTake, hc, hs, if_true, if_false] at hr
      subst hr
      refine ⟨?_, fun h => absurd hc h, fun _ h => absurd hs h, fun _ _ => ?_⟩
      · right; right
        split <;> simp_all
      · refine ⟨?_, sorted_sortStrings _, ?_, ?_⟩
        · intro x
          simp only [mem_sortStrings, List.mem_filter, mem_dedupFirst,
            Bool.not_eq_true', decide_eq_false_iff_not, decide_eq_true_eq,
            Bool.not_eq_eq_eq_not, Bool.not_true]
        · exact nodup_sortStrings _ ((nodup_dedupFirst _).filter _)
        · split <;> simp_all
    · simp only [checkStudentCanTake, hc, hs, if_true, if_false] at hr
      subst hr
      exact ⟨Or.inr (Or.inl rfl), fun h => absurd hc h,
        fun _ _ => ⟨rfl, rfl, rfl⟩, fun _ h => absurd h hs⟩
  · simp only [checkStudentCanTake, hc, if_false] at hr
    subst hr
    exact ⟨Or.inl rfl, fun _ => ⟨rfl, rfl, rfl, rfl⟩,
      fun h => absurd h hc, fun h => absurd h hc⟩

/-- A small concrete database: `MATH 100` is a prerequisite of `CS 200`,
student `S1` exists and has completed nothing. -/
def db5 : GraphDB :=
  { courses := ["CS 200", "MATH 100"]
    courseNames := []
    courseCredits := []
    prereqEdges := [("MATH 100", "CS 200")]
    students := ["S1"]
    studentsById := []
    hasCompleted := []
    enrolledIn := []
    requiredFor := []
    offeredIn := [] }

/-- Witness for C5 at a concrete database and an existing course/student. -/
theorem c5_witness :
    ("CS 200" ∈ db5.courses ∧ "S1" ∈ db5.students) ∧
    (((checkStudentCanTake db5 "S1" "CS 200").can_take = true ∧
      (checkStudentCanTake db5 "S1" "CS 200").reason = "ok") ↔
      (checkStudentCanTake db5 "S1" "CS 200").missing = []) :=
  ⟨⟨by decide, by decide⟩,
    ((c5_check_student_can_take db5 "S1" "CS 200" _ rfl).2.2.2
      (by decide) (by decide)).2.2.2⟩

/-! ## Claim C4 — `degree_topological_sort` (`degree_planner_service.py` lines 67-93)

The degree planner's leveling: build `graph = {c: set(get_direct_prereqs(c))}`
over the input course set, then repeatedly extract
`available = [c for c in remaining if not graph[c] & remaining]`, appending
`sorted(available)` as one level, until `remaining` is empty; return `None`
when no course can be extracted.  (`remaining` is a Python set; only
membership in it is ever used, and each emitted level is re-sorted, so the
embedding carries it as a duplicate-free list.) -/

/-- `get_direct_prereqs` of `degree_planner_service.py`:
`MATCH (p:Course)-[:PRE_REQUIRES]->(c:Course {code: $course}) RETURN p.code`
— the edges coming *into* the course (no ORDER BY). -/
def getDirectPrereqs (db : GraphDB) (course : String) : List String :=
  db.preds course

/-- The courses extractable this round: those none of whose prerequisites is
still in `remaining` (`not graph[c] & remaining`). -/
def availableOf (P : String → List String) (remaining : List String) : List String :=
  remaining.filter (fun c => decide (∀ p ∈ P c, ¬ p ∈ remaining))

/-- The courses left for the next round (`remaining -= set(available)`). -/
def restOf (P : String → List String) (remaining : List String) : List String :=
  remaining.filter (fun c => decide (¬ c ∈ availableOf P remaining))

theorem length_restOf_lt (P : String → List String) (remaining : List String)
    (h : availableOf P remaining ≠ []) :
    (restOf P remaining).length < remaining.length := by
  apply List.length_filter_lt_length_iff_exists.mpr
  rcases List.exists_mem_of_ne_nil _ h with ⟨a, ha⟩
  exact ⟨a, (List.mem_filter.mp ha).1, by simp [ha]⟩

/-- The while-loop of `degree_topological_sort`, as a recursion on the
remaining course set. -/
def degreeTopoGo (P : String → List String) (remaining : List String) :
    Option (List (List String)) :=
  if remaining = [] then some []
  else if h : availableOf P remaining = [] then none
  else
    match degreeTopoGo P (restOf P remaining) with
    | none => none
    | some seq => some (sortStrings (availableOf P remaining) :: seq)
termination_by remaining.length
decreasing_by exact length_restOf_lt P remaining h

/-- `degree_topological_sort` of `degree_planner_service.py`, over the
database the prerequisite lookups read. -/
def degreeTopologicalSort (db : GraphDB) (courses : List String) :
    Option (List (List String)) :=
  degreeTopoGo (fun c => getDirectPrereqs db c) (dedupFirst courses)

theorem mem_availableOf {P : String → List String} {remaining : List String} {c : String} :
    c ∈ availableOf P remaining ↔ c ∈ remaining ∧ ∀ p ∈ P c, ¬ p ∈ remaining := by
  simp [availableOf]

theorem mem_restOf {P : String → List String} {remaining : List String} {c : String} :
    c ∈ restOf P remaining ↔ c ∈ remaining ∧ ¬ c ∈ availableOf P remaining := by
  simp [restOf]

theorem remaining_split {P : String → List String} {remaining : List String} {x : String} :
    x ∈ remaining ↔ x ∈ availableOf P remaining ∨ x ∈ restOf P remaining := by
  constructor
  · intro hx
    by_cases ha : x ∈ availableOf P remaining
    · exact Or.inl ha
    · exact Or.inr (mem_restOf.mpr ⟨hx, ha⟩)
  · rintro (h | h)
    · exact (mem_availableOf.mp h).1
    · exact (mem_restOf.mp h).1

/-- Every level sequence `degree_topological_sort` returns consists of
non-empty alphabetically sorted batches, partitions the remaining set, and
puts each course's in-set prerequisites in strictly earlier batches. -/
theorem topoGo_some (P : String → List String) :
    ∀ n (remaining : List String), remaining.length ≤ n → remaining.Nodup →
      ∀ seq, degreeTopoGo P remaining = some seq →
        (∀ b ∈ seq, b ≠ [] ∧ b.Pairwise (fun a b => strLe a b = true)) ∧
        seq.flatten.Nodup ∧
        (∀ x, x ∈ seq.flatten ↔ x ∈ remaining) ∧
        (∀ i (hi : i < seq.length) c, c ∈ seq.get ⟨i, hi⟩ →
           ∀ p ∈ P c, p ∈ remaining →
             ∃ j, ∃ hj : j < i, p ∈ seq.get ⟨j, Nat.lt_trans hj hi⟩) := by
  intro n
  induction n with
  | zero =>
    intro remaining hlen _ seq hsome
    have hrem : remaining = [] := List.eq_nil_of_length_eq_zero (Nat.le_zero.mp hlen)
    subst hrem
    rw [degreeTopoGo] at hsome
    simp only [if_true, Option.some.injEq] at hsome
    subst hsome
    exact ⟨by simp, by simp, by simp, by intro i hi; simp at hi⟩
  | succ n ih =>
    intro remaining hlen hnodup seq hsome
    rw [degreeTopoGo] at hsome
    by_cases hrem : remaining = []
    · subst hrem
      simp only [if_true, Option.some.injEq] at hsome
      subst hsome
      exact ⟨by simp, by simp, by simp, by intro i hi; simp at hi⟩
    · rw [if_neg hrem] at hsome
      by_cases hav : availableOf P remaining = []
      · rw [dif_pos hav] at hsome; exact absurd hsome (by simp)
      · rw [dif_neg hav] at hsome
        have hrest_len : (restOf P remaining).length ≤ n := by
          have := length_restOf_lt P remaining hav
          omega
        have hrest_nodup : (restOf P remaining).Nodup := hnodup.filter _
        cases hrec : degreeTopoGo P (restOf P remaining) with
        | none => rw [hrec] at hsome; exact absurd hsome (by simp)
        | some seq' =>
          rw [hrec] at hsome
          simp only [Option.some.injEq] at hsome
          rcases ih (restOf P remaining) hrest_len hrest_nodup seq' hrec
            with ⟨ihb, ihnd, ihmem, ihlev⟩
          subst hsome
          have hbatch_mem : ∀ x, x ∈ sortStrings (availableOf P remaining) ↔
              x ∈ availableOf P remaining := fun x => mem_sortStrings _ x
          have hbatch_nodup : (sortStrings (availableOf P remaining)).Nodup :=
            nodup_sortStrings _ (hnodup.filter _)
          refine ⟨?_, ?_, ?_, ?_⟩
          · intro b hb
            rcases List.mem_cons.mp hb with rfl | hb'
            · refine ⟨?_, sorted_sortStrings _⟩
              intro hnil
              apply hav
              have hp : (sortStrings (availableOf P remaining)).Perm
                  (availableOf P remaining) := perm_sortBy strLe _
              rw [hnil] at hp
              exact hp.symm.eq_nil
            · exact ihb b hb'
          · simp only [List.flatten_cons]
            refine List.nodup_append.mpr ⟨hbatch_nodup, ihnd, ?_⟩
            intro x hx hx'
            have hxa : x ∈ availableOf P remaining := (hbatch_mem x).mp hx
            have hxr : x ∈ restOf P remaining := (ihmem x).mp hx'
            exact (mem_restOf.mp hxr).2 hxa
          · intro x
            simp only [List.flatten_cons, List.mem_append, hbatch_mem, ihmem]
            exact (@remaining_split P remaining x).symm
          · intro i hi c hc p hp hpin
            cases i with
            | zero =>
              have hca : c ∈ availableOf P remaining := (hbatch_mem c).mp hc
              exact absurd hpin ((mem_availableOf.mp hca).2 p hp)
            | succ i =>
              have hi' : i < seq'.length := by
                simpa using Nat.lt_of_succ_lt_succ hi
              have hc' : c ∈ seq'.get ⟨i, hi'⟩ := hc
              rcases (@remaining_split P remaining p).mp hpin with hpa | hpr
              · exact ⟨0, Nat.succ_pos i, (hbatch_mem p).mpr hpa⟩
              · rcases ihlev i hi' c hc' p hp hpr with ⟨j, hj, hpj⟩
                exact ⟨j + 1, Nat.succ_lt_succ hj, hpj⟩

/-- `degree_topological_sort` returns the cycle sentinel exactly when some
non-empty subset of the remaining set keeps every one of its members blocked
by a prerequisite inside the subset. -/
theorem topoGo_none (P : String → List String) :
    ∀ n (remaining : List String), remaining.length ≤ n →
      (degreeTopoGo P remaining = none ↔
        ∃ S : List String, S ≠ [] ∧ (∀ x ∈ S, x ∈ remaining) ∧
          ∀ c ∈ S, ∃ p ∈ P c, p ∈ S) := by
  intro n
  induction n with
  | zero =>
    intro remaining hlen
    have hrem : remaining = [] := List.eq_nil_of_length_eq_zero (Nat.le_zero.mp hlen)
    subst hrem
    rw [degreeTopoGo]
    simp only [if_true]
    constructor
    · intro h; exact absurd h (by simp)
    · rintro ⟨S, hSne, hSsub, _⟩
      rcases List.exists_mem_of_ne_nil S hSne with ⟨x, hx⟩
      exact absurd (hSsub x hx) (by simp)
  | succ n ih =>
    intro remaining hlen
    rw [degreeTopoGo]
    by_cases hrem : remaining = []
    · subst hrem
      simp only [if_true]
      constructor
      · intro h; exact absurd h (by simp)
      · rintro ⟨S, hSne, hSsub, _⟩
        rcases List.exists_mem_of_ne_nil S hSne with ⟨x, hx⟩
        exact absurd (hSsub x hx) (by simp)
    · rw [if_neg hrem]
      by_cases hav : availableOf P remaining = []
      · rw [dif_pos hav]
        constructor
        · intro _
          refine ⟨remaining, hrem, fun x hx => hx, ?_⟩
          intro c hc
          by_contra hno
          push_neg at hno
          have : c ∈ availableOf P remaining := mem_availableOf.mpr ⟨hc, hno⟩
          rw [hav] at this
          exact absurd this (List.not_mem_nil c)
        · intro _; rfl
      · rw [dif_neg hav]
        have hrest_len : (restOf P remaining).length ≤ n := by
          have := length_restOf_lt P remaining hav
          omega
        have hiff := ih (restOf P remaining) hrest_len
        constructor
        · intro hnone
          cases hrec : degreeTopoGo P (restOf P remaining) with
          | none =>
            rcases hiff.mp hrec with ⟨S, hSne, hSsub, hScyc⟩
            exact ⟨S, hSne, fun x hx => (mem_restOf.mp (hSsub x hx)).1, hScyc⟩
          | some seq' =>
            rw [hrec] at hnone
            exact absurd hnone (by simp)
        · rintro ⟨S, hSne, hSsub, hScyc⟩
          have hSrest : ∀ x ∈ S, x ∈ restOf P remaining := by
            intro x hx
            refine mem_restOf.mpr ⟨hSsub x hx, ?_⟩
            intro hxa
            rcases hScyc x hx with ⟨p, hp, hpS⟩
            exact (mem_availableOf.mp hxa).2 p hp (hSsub p hpS)
          have : degreeTopoGo P (restOf P remaining) = none :=
            hiff.mpr ⟨S, hSne, hSrest, hScyc⟩
          rw [this]

/-- Claim C4: the degree planner's topological leveling either returns a
sequence of non-empty alphabetically sorted batches partitioning the input
set, with every course's in-set prerequisites in strictly earlier batches,
or returns `none`; and it returns `none` exactly when some non-empty subset
of the input set keeps each of its members blocked by an in-subset
prerequisite (a cycle in the in-set-restricted graph). -/
theorem c4_degree_topological_sort (db : GraphDB) (courses : List String) :
    (∀ seq, degreeTopologicalSort db courses = some seq →
       (∀ b ∈ seq, b ≠ [] ∧ b.Pairwise (fun a b => strLe a b = true)) ∧
       seq.flatten.Nodup ∧
       (∀ x, x ∈ seq.flatten ↔ x ∈ courses) ∧
       (∀ i (hi : i < seq.length) c, c ∈ seq.get ⟨i, hi⟩ →
          ∀ p ∈ getDirectPrereqs db c, p ∈ courses →
            ∃ j, ∃ hj : j < i, p ∈ seq.get ⟨j, Nat.lt_trans hj hi⟩)) ∧
    (degreeTopologicalSort db courses = none ↔
       ∃ S : List String, S ≠ [] ∧ (∀ x ∈ S, x ∈ courses) ∧
         ∀ c ∈ S, ∃ p ∈ getDirectPrereqs db c, p ∈ S) := by
  constructor
  · intro seq hsome
    rcases topoGo_some (fun c => getDirectPrereqs db c) (dedupFirst courses).length
      (dedupFirst courses) (Nat.le_refl _) (nodup_dedupFirst courses) seq hsome
      with ⟨hb, hnd, hmem, hlev⟩
    refine ⟨hb, hnd, ?_, ?_⟩
    · intro x; rw [hmem x, mem_dedupFirst]
    · intro i hi c hc p hp hpin
      exact hlev i hi c hc p hp ((mem_dedupFirst courses p).mpr hpin)
  · have h := topoGo_none (fun c => getDirectPrereqs db c) (dedupFirst courses).length
      (dedupFirst courses) (Nat.le_refl _)
    constructor
    · intro hn
      rcases h.mp hn with ⟨S, hSne, hSsub, hScyc⟩
      exact ⟨S, hSne, fun x hx => (mem_dedupFirst courses x).mp (hSsub x hx), hScyc⟩
    · rintro ⟨S, hSne, hSsub, hScyc⟩
      exact h.mpr ⟨S, hSne, fun x hx => (mem_dedupFirst courses x).mpr (hSsub x hx), hScyc⟩

/-- A concrete two-course chain: `CS 101` is a prerequisite of `CS 102`. -/
def db4 : GraphDB :=
  { courses := ["CS 101", "CS 102"]
    courseNames := []
    courseCredits := []
    prereqEdges := [("CS 101", "CS 102")]
    students := []
    studentsById := []
    hasCompleted := []
    enrolledIn := []
    requiredFor := []
    offeredIn := [] }

/-- A concrete two-course cycle between `CS 201` and `CS 202`. -/
def db4c : GraphDB :=
  { courses := ["CS 201", "CS 202"]
    courseNames := []
    courseCredits := []
    prereqEdges := [("CS 201", "CS 202"), ("CS 202", "CS 201")]
    students := []
    studentsById := []
    hasCompleted := []
    enrolledIn := []
    requiredFor := []
    offeredIn := [] }

/-- Witness for C4: on the cyclic two-course database the leveling returns
the `None` sentinel, obtained from the theorem by exhibiting the cycling
subset concretely. -/
theorem c4_witness :
    (["CS 201", "CS 202"] ≠ ([] : List String)) ∧
    degreeTopologicalSort db4c ["CS 201", "CS 202"] = none :=
  ⟨by decide,
    (c4_degree_topological_sort db4c ["CS 201", "CS 202"]).2.mpr
      ⟨["CS 201", "CS 202"], by decide, by decide, by decide⟩⟩

/-! ## Claim C3 — `all_topological_orders` (`graduation_paths_service.py` lines 32-71)

Backtracking DFS over a graph `{course: set-of-direct-prerequisites}` carried
as an association list (a Python dict: unique keys, insertion order).  At each
level the Python code scans every key not yet visited whose recorded
prerequisites are all visited, places it, recurses and backtracks; when no
key could be placed it records a copy of the current order.  The recursion is
embedded with a fuel argument bounding its depth: every nested call visits
one more key, so from the initial call the depth never exceeds the number of
keys plus one, and the fuel `allTopologicalOrders` supplies is never
exhausted. -/

/-- The keys of the graph dict. -/
def keysG (g : List (String × List String)) : List String := g.map Prod.fst

/-- Lookup of a key's recorded prerequisite set (`graph[node]`). -/
def prereqsOf : List (String × List String) → String → List String
  | [], _ => []
  | (a, ps) :: rest, c => if a = c then ps else prereqsOf rest c

/-- The entries the inner `for node in graph` loop places at this level:
unvisited keys whose recorded prerequisites are all visited. -/
def candidatesG (g : List (String × List String)) (visited : List String) :
    List (String × List String) :=
  g.filter (fun nc => decide (¬ nc.1 ∈ visited ∧ ∀ p ∈ nc.2, p ∈ visited))

/-- The recursive `dfs()` of `all_topological_orders`: place each candidate
in turn, recurse, backtrack; record the current order when no candidate
exists. -/
def dfsOrders (g : List (String × List String)) (fuel : Nat)
    (visited order : List String) : List (List String) :=
  match fuel with
  | 0 => []
  | fuel + 1 =>
    if candidatesG g visited = [] then [order]
    else (candidatesG g visited).flatMap
      (fun nc => dfsOrders g fuel (nc.1 :: visited) (order ++ [nc.1]))

/-- `all_topological_orders` of `graduation_paths_service.py`. -/
def allTopologicalOrders (g : List (String × List String)) : List (List String) :=
  dfsOrders g ((keysG g).length + 1) [] []

/-- `l` places every course after all its recorded prerequisites. -/
def pvalidG (g : List (String × List String)) (l : List String) : Prop :=
  ∀ l₁ c l₂, l = l₁ ++ c :: l₂ → ∀ p ∈ prereqsOf g c, p ∈ l₁

/-- `l` is a duplicate-free ordering of the full course set respecting every
recorded prerequisite constraint. -/
def validOrder (g : List (String × List String)) (l : List String) : Prop :=
  l.Nodup ∧ (∀ x, x ∈ l ↔ x ∈ keysG g) ∧ pvalidG g l

theorem mem_keysG {g : List (String × List String)} {nc : String × List String}
    (h : nc ∈ g) : nc.1 ∈ keysG g :=
  List.mem_map.mpr ⟨nc, h, rfl⟩

theorem mem_keysG_iff {g : List (String × List String)}
    (hnd : (keysG g).Nodup) {c : String} {ps : List String} :
    (c, ps) ∈ g ↔ (c ∈ keysG g ∧ prereqsOf g c = ps) := by
  induction g with
  | nil => simp [keysG, prereqsOf]
  | cons aqs rest ih =>
    obtain ⟨a, qs⟩ := aqs
    have hnd' : (keysG rest).Nodup := (List.nodup_cons.mp hnd).2
    have hna : ¬ a ∈ keysG rest := (List.nodup_cons.mp hnd).1
    constructor
    · intro hmem
      rcases List.mem_cons.mp hmem with heq | hrest
      · injection heq with h1 h2
        subst h1
        subst h2
        exact ⟨by simp [keysG], by simp [prereqsOf]⟩
      · have hc : c ∈ keysG rest := mem_keysG hrest
        have hne : a ≠ c := fun h => hna (h ▸ hc)
        refine ⟨List.mem_cons_of_mem _ hc, ?_⟩
        simp only [prereqsOf, hne, if_false]
        exact ((ih hnd').mp hrest).2
    · rintro ⟨hc, hp⟩
      by_cases hac : a = c
      · subst hac
        simp only [prereqsOf, if_pos rfl] at hp
        subst hp
        exact List.mem_cons_self _ _
      · rcases List.mem_cons.mp hc with hca | hcrest
        · exact absurd hca.symm hac
        · simp only [prereqsOf, hac, if_false] at hp
          exact List.mem_cons_of_mem _ ((ih hnd').mpr ⟨hcrest, hp⟩)

theorem mem_candidatesG {g : List (String × List String)} {visited : List String}
    {nc : String × List String} :
    nc ∈ candidatesG g visited ↔
      nc ∈ g ∧ ¬ nc.1 ∈ visited ∧ ∀ p ∈ nc.2, p ∈ visited := by
  simp [candidatesG, and_assoc]

/-- Some element of a non-empty list has minimal rank. -/
theorem exists_min_rank (rank : String → Nat) :
    ∀ (U : List String), U ≠ [] → ∃ u ∈ U, ∀ v ∈ U, rank u ≤ rank v := by
  intro U
  induction U with
  | nil => intro h; exact absurd rfl h
  | cons x xs ih =>
    intro _
    by_cases hxs : xs = []
    · subst hxs
      refine ⟨x, List.mem_cons_self _ _, ?_⟩
      intro v hv
      rcases List.mem_cons.mp hv with rfl | hv
      · exact Nat.le_refl _
      · cases hv
    · rcases ih hxs with ⟨u, hu, hmin⟩
      by_cases h : rank x ≤ rank u
      · refine ⟨x, List.mem_cons_self _ _, ?_⟩
        intro v hv
        rcases List.mem_cons.mp hv with rfl | hv
        · exact Nat.le_refl _
        · exact Nat.le_trans h (hmin v hv)
      · refine ⟨u, List.mem_cons_of_mem _ hu, ?_⟩
        intro v hv
        rcases List.mem_cons.mp hv with rfl | hv
        · exact Nat.le_of_lt (Nat.lt_of_not_le h)
        · exact hmin v hv

theorem length_filter_mono {α : Type} (p q : α → Bool) (l : List α)
    (h : ∀ x, p x = true → q x = true) :
    (l.filter p).length ≤ (l.filter q).length := by
  induction l with
  | nil => exact Nat.le_refl _
  | cons x xs ih =>
    simp only [List.filter_cons]
    cases hp : p x
    · cases hq : q x
      · simpa using ih
      · simp only [List.length_cons]
        exact Nat.le_succ_of_le ih
    · rw [h x hp]
      simpa using ih

/-- Visiting one more key that occurs unvisited in `l` strictly shrinks the
count of unvisited occurrences. -/
theorem length_filter_cons_lt {l vis : List String} {a : String}
    (hal : a ∈ l) (hav : ¬ a ∈ vis) :
    (l.filter (fun k => decide (¬ k ∈ a :: vis))).length <
      (l.filter (fun k => decide (¬ k ∈ vis))).length := by
  induction l with
  | nil => cases hal
  | cons x xs ih =>
    by_cases hxa : x = a
    · subst hxa
      have hm := length_filter_mono (fun k => decide (¬ k ∈ x :: vis))
        (fun k => decide (¬ k ∈ vis)) xs ?_
      · have e1 : List.filter (fun k => decide (¬ k ∈ x :: vis)) (x :: xs)
            = List.filter (fun k => decide (¬ k ∈ x :: vis)) xs := by
          rw [List.filter_cons, if_neg]
          simp
        have e2 : List.filter (fun k => decide (¬ k ∈ vis)) (x :: xs)
            = x :: List.filter (fun k => decide (¬ k ∈ vis)) xs := by
          rw [List.filter_cons, if_pos]
          simpa using hav
        rw [e1, e2]
        simp only [List.length_cons]
        omega
      · intro k hk
        simp only [decide_eq_true_eq] at hk ⊢
        exact fun hkv => hk (List.mem_cons_of_mem _ hkv)
    · have hax : a ∈ xs := by
        rcases List.mem_cons.mp hal with h | h
        · exact absurd h.symm hxa
        · exact h
      have heq : decide (¬ x ∈ a :: vis) = decide (¬ x ∈ vis) := by
        simp only [List.mem_cons, decide_not]
        congr 1
        simp [hxa]
      simp only [List.filter_cons, heq]
      cases hd : decide (¬ x ∈ vis)
      · simpa using ih hax
      · simp only [List.length_cons]
        exact Nat.succ_lt_succ (ih hax)

/-- Every recorded ordering extends the order at the call. -/
theorem dfs_extends (g : List (String × List String)) :
    ∀ fuel visited order l, l ∈ dfsOrders g fuel visited order →
      ∃ s, l = order ++ s := by
  intro fuel
  induction fuel with
  | zero => intro _ _ l h; cases h
  | succ fuel ih =>
    intro visited order l h
    rw [dfsOrders] at h
    by_cases hcand : candidatesG g visited = []
    · rw [if_pos hcand] at h
      rcases List.mem_singleton.mp h with rfl
      exact ⟨[], by simp⟩
    · rw [if_neg hcand] at h
      rcases List.mem_flatMap.mp h with ⟨nc, _, hl⟩
      rcases ih _ _ l hl with ⟨s, hs⟩
      exact ⟨nc.1 :: s, by simpa using hs⟩

/-- Decomposing a split of a snoc: either the split isolates the appended
element, or it happens inside the original list. -/
theorem split_snoc {α : Type} {l₁ l₂ ord : List α} {d c : α}
    (h : l₁ ++ d :: l₂ = ord ++ [c]) :
    (l₁ = ord ∧ d = c ∧ l₂ = []) ∨
    ∃ l₂', l₂ = l₂' ++ [c] ∧ ord = l₁ ++ d :: l₂' := by
  rcases List.eq_nil_or_concat l₂ with rfl | ⟨l₂', b, rfl⟩
  · left
    have hlen : l₁.length = ord.length := by
      have hl := congrArg List.length h
      simp only [List.length_append, List.length_cons] at hl
      omega
    rcases List.append_inj h hlen with ⟨h1, h2⟩
    exact ⟨h1, by simpa using h2, rfl⟩
  · right
    rw [List.concat_eq_append] at h
    have h' : (l₁ ++ d :: l₂') ++ [b] = ord ++ [c] := by
      simpa using h
    have hlen : (l₁ ++ d :: l₂').length = ord.length := by
      have hl := congrArg List.length h'
      simp only [List.length_append, List.length_cons] at hl ⊢
      omega
    rcases List.append_inj h' hlen with ⟨h1, h2⟩
    have hbc : b = c := by simpa using h2
    exact ⟨l₂', by rw [hbc, List.concat_eq_append], h1.symm⟩

theorem pvalid_snoc {g : List (String × List String)} {ord : List String} {c : String}
    (hord : pvalidG g ord) (hc : ∀ p ∈ prereqsOf g c, p ∈ ord) :
    pvalidG g (ord ++ [c]) := by
  intro l₁ d l₂ hsplit p hp
  rcases split_snoc hsplit.symm with ⟨rfl, rfl, rfl⟩ | ⟨l₂', _, hord'⟩
  · exact hc p hp
  · exact hord l₁ d l₂' hord' p hp

/-- The backtracking enumeration from any intermediate state returns exactly
the completions of the current order into full valid orderings, without
duplicates — under no-duplicate keys, in-set prerequisites and a rank
function witnessing acyclicity of the recorded prerequisite relation. -/
theorem dfs_main (g : List (String × List String))
    (hnd : (keysG g).Nodup)
    (hsub : ∀ nc ∈ g, ∀ p ∈ nc.2, p ∈ keysG g)
    (rank : String → Nat)
    (hrank : ∀ nc ∈ g, ∀ p ∈ nc.2, rank p < rank nc.1) :
    ∀ fuel visited ord,
      ((keysG g).filter (fun k => decide (¬ k ∈ visited))).length < fuel →
      ord.Nodup →
      (∀ x, x ∈ visited ↔ x ∈ ord) →
      (∀ x ∈ ord, x ∈ keysG g) →
      pvalidG g ord →
      ((∀ l, l ∈ dfsOrders g fuel visited ord ↔
          ((∃ s, l = ord ++ s) ∧ validOrder g l)) ∧
       (dfsOrders g fuel visited ord).Nodup) := by
  intro fuel
  induction fuel with
  | zero =>
    intro visited ord hfuel
    exact absurd hfuel (Nat.not_lt_zero _)
  | succ fuel ih =>
    intro visited ord hfuel hordnd hvisord hordkeys hpv
    by_cases hcand : candidatesG g visited = []
    · -- no candidate: every key is visited (otherwise a minimal-rank
      -- unvisited key would be a candidate), and [order] is recorded
      have hkeysub : ∀ k ∈ keysG g, k ∈ visited := by
        by_contra hno
        push_neg at hno
        obtain ⟨k, hk, hkv⟩ := hno
        have hUne : (keysG g).filter (fun k => decide (¬ k ∈ visited)) ≠ [] := by
          intro hU
          have hkU : k ∈ (keysG g).filter (fun k => decide (¬ k ∈ visited)) := by
            simp [List.mem_filter, hk, hkv]
          rw [hU] at hkU
          exact absurd hkU (List.not_mem_nil k)
        obtain ⟨u, hu, humin⟩ := exists_min_rank rank _ hUne
        have hu' := List.mem_filter.mp hu
        have huk : u ∈ keysG g := hu'.1
        have huv : ¬ u ∈ visited := by simpa using hu'.2
        have hentry : (u, prereqsOf g u) ∈ g := (mem_keysG_iff hnd).mpr ⟨huk, rfl⟩
        have hcandmem : (u, prereqsOf g u) ∈ candidatesG g visited := by
          refine mem_candidatesG.mpr ⟨hentry, huv, ?_⟩
          intro p hp
          by_contra hpnv
          have hpk : p ∈ keysG g := hsub _ hentry p hp
          have hpU : p ∈ (keysG g).filter (fun k => decide (¬ k ∈ visited)) := by
            simp [List.mem_filter, hpk, hpnv]
          have h1 := humin p hpU
          have h2 : rank p < rank u := hrank _ hentry p hp
          omega
        rw [hcand] at hcandmem
        exact absurd hcandmem (List.not_mem_nil _)
      have hordeq : ∀ x, x ∈ ord ↔ x ∈ keysG g :=
        fun x => ⟨fun h => hordkeys x h, fun h => (hvisord x).mp (hkeysub x h)⟩
      constructor
      · intro l
        rw [dfsOrders, if_pos hcand]
        constructor
        · intro hl
          rcases List.mem_singleton.mp hl with rfl
          exact ⟨⟨[], by simp⟩, hordnd, hordeq, hpv⟩
        · rintro ⟨⟨s, rfl⟩, hlnd, hlmem, _⟩
          cases s with
          | nil => simp
          | cons y ys =>
            exfalso
            have hyk : y ∈ keysG g := (hlmem y).mp (by simp)
            have hyord : y ∈ ord := (hordeq y).mpr hyk
            exact (List.nodup_append.mp hlnd).2.2 hyord (by simp)
      · rw [dfsOrders, if_pos hcand]
        exact List.nodup_singleton _
    · -- some candidate: the results are the union of the branches
      have hfacts : ∀ nc ∈ candidatesG g visited,
          nc.1 ∈ keysG g ∧ ¬ nc.1 ∈ visited ∧ (∀ p ∈ nc.2, p ∈ visited) ∧
          prereqsOf g nc.1 = nc.2 := by
        intro nc hnc
        rcases mem_candidatesG.mp hnc with ⟨hg, hnv, hps⟩
        have hk : nc.1 ∈ keysG g := mem_keysG hg
        have hg' : (nc.1, nc.2) ∈ g := by simpa using hg
        exact ⟨hk, hnv, hps, ((mem_keysG_iff hnd).mp hg').2⟩
      have hIH : ∀ nc ∈ candidatesG g visited,
          (∀ l, l ∈ dfsOrders g fuel (nc.1 :: visited) (ord ++ [nc.1]) ↔
             ((∃ s, l = (ord ++ [nc.1]) ++ s) ∧ validOrder g l)) ∧
          (dfsOrders g fuel (nc.1 :: visited) (ord ++ [nc.1])).Nodup := by
        intro nc hnc
        obtain ⟨hk, hnv, hps, hpr⟩ := hfacts nc hnc
        apply ih
        · have := @length_filter_cons_lt (keysG g) visited nc.1 hk hnv
          omega
        · refine List.nodup_append.mpr ⟨hordnd, List.nodup_singleton _, ?_⟩
          intro x hx hx1
          have hx1' : x = nc.1 := List.mem_singleton.mp hx1
          subst hx1'
          exact hnv ((hvisord _).mpr hx)
        · intro x
          simp only [List.mem_cons, List.mem_append, List.mem_singleton]
          rw [hvisord x]
          tauto
        · intro x hx
          rcases List.mem_append.mp hx with hx | hx
          · exact hordkeys x hx
          · have : x = nc.1 := List.mem_singleton.mp hx
            subst this
            exact hk
        · apply pvalid_snoc hpv
          rw [hpr]
          intro p hp
          exact (hvisord p).mp (hps p hp)
      constructor
      · intro l
        rw [dfsOrders, if_neg hcand, List.mem_flatMap]
        constructor
        · rintro ⟨nc, hnc, hl⟩
          rcases ((hIH nc hnc).1 l).mp hl with ⟨⟨s, hs⟩, hval⟩
          exact ⟨⟨nc.1 :: s, by simpa using hs⟩, hval⟩
        · rintro ⟨⟨s, rfl⟩, hval⟩
          obtain ⟨hlnd, hlmem, hlpv⟩ := hval
          cases s with
          | nil =>
            exfalso
            obtain ⟨nc, hnc⟩ := List.exists_mem_of_ne_nil _ hcand
            obtain ⟨hk, hnv, _, _⟩ := hfacts nc hnc
            have hmem : nc.1 ∈ ord ++ [] := (hlmem nc.1).mpr hk
            simp only [List.append_nil] at hmem
            exact hnv ((hvisord nc.1).mpr hmem)
          | cons c rest =>
            have hck : c ∈ keysG g := (hlmem c).mp (by simp)
            have hcord : ¬ c ∈ ord := fun hc =>
              (List.nodup_append.mp hlnd).2.2 hc (List.mem_cons_self _ _)
            have hcnv : ¬ c ∈ visited := fun h => hcord ((hvisord c).mp h)
            have hpc : ∀ p ∈ prereqsOf g c, p ∈ ord := hlpv ord c rest rfl
            have hentry : (c, prereqsOf g c) ∈ g := (mem_keysG_iff hnd).mpr ⟨hck, rfl⟩
            have hcc : (c, prereqsOf g c) ∈ candidatesG g visited :=
              mem_candidatesG.mpr ⟨hentry, hcnv, fun p hp => (hvisord p).mpr (hpc p hp)⟩
            refine ⟨(c, prereqsOf g c), hcc, ?_⟩
            apply ((hIH _ hcc).1 _).mpr
            exact ⟨⟨rest, by simp⟩, hlnd, hlmem, hlpv⟩
      · rw [dfsOrders, if_neg hcand]
        apply List.nodup_flatMap.mpr
        refine ⟨fun nc hnc => (hIH nc hnc).2, ?_⟩
        have hpwfst : (candidatesG g visited).Pairwise (fun a b => a.1 ≠ b.1) := by
          have h2 : (g.map Prod.fst).Pairwise (· ≠ ·) := hnd
          have h3 : g.Pairwise (fun a b => a.1 ≠ b.1) := List.pairwise_map.mp h2
          exact h3.sublist (List.filter_sublist g)
        refine hpwfst.imp ?_
        intro a b hab
        intro l hla hlb
        rcases dfs_extends g fuel _ _ l hla with ⟨s1, hs1⟩
        rcases dfs_extends g fuel _ _ l hlb with ⟨s2, hs2⟩
        apply hab
        have heq : (ord ++ [a.1]) ++ s1 = (ord ++ [b.1]) ++ s2 := by
          rw [← hs1, ← hs2]
        have h' : ord ++ (a.1 :: s1) = ord ++ (b.1 :: s2) := by simpa using heq
        have h'' := List.append_cancel_left h'
        have hhd := congrArg (fun t => t.head?) h''
        simpa using hhd

/-- Claim C3 (amended): for a prerequisite graph with no duplicate courses,
all recorded prerequisites inside the course set, and an acyclic prerequisite
relation (witnessed by a rank function), `all_topological_orders` returns
exactly the distinct permutations of the full course set that respect every
prerequisite constraint: membership in the result is equivalent to being a
valid ordering, every result is a permutation of the course set, and no
ordering is listed twice. -/
theorem c3_all_topological_orders (g : List (String × List String))
    (hnd : (keysG g).Nodup)
    (hsub : ∀ nc ∈ g, ∀ p ∈ nc.2, p ∈ keysG g)
    (rank : String → Nat)
    (hrank : ∀ nc ∈ g, ∀ p ∈ nc.2, rank p < rank nc.1) :
    (∀ l, l ∈ allTopologicalOrders g ↔ validOrder g l) ∧
    (∀ l ∈ allTopologicalOrders g, l.Perm (keysG g)) ∧
    (allTopologicalOrders g).Nodup := by
  have hmain := dfs_main g hnd hsub rank hrank ((keysG g).length + 1) [] []
    (by
      have := List.length_filter_le
        (fun k => decide (¬ k ∈ ([] : List String))) (keysG g)
      omega)
    List.nodup_nil
    (by simp)
    (by intro x hx; cases hx)
    (by
      intro l₁ c l₂ hsplit p _
      exact absurd hsplit.symm (by simp))
  have hiff : ∀ l, l ∈ allTopologicalOrders g ↔ validOrder g l := by
    intro l
    have h := hmain.1 l
    constructor
    · intro hl
      exact (h.mp hl).2
    · intro hv
      exact h.mpr ⟨⟨l, by simp⟩, hv⟩
  refine ⟨hiff, ?_, hmain.2⟩
  intro l hl
  obtain ⟨hlnd, hlmem, _⟩ := (hiff l).mp hl
  exact (hlnd.subperm (fun x hx => (hlmem x).mp hx)).antisymm
    (hnd.subperm (fun x hx => (hlmem x).mpr hx))

/-- Counterexample for C3 as stated: on the one-course graph whose single
course lists itself as a prerequisite (a cycle), `all_topological_orders`
records the empty ordering — which is not a permutation of the course set —
so the result is not the set of valid permutations, and an ordering is
recorded at a level where not all courses have been placed. -/
theorem c3_counterexample :
    allTopologicalOrders [("A", ["A"])] = [[]] ∧
    ¬ validOrder [("A", ["A"])] [] := by
  constructor
  · decide
  · rintro ⟨_, hmem, _⟩
    have h1 : "A" ∈ keysG [("A", ["A"])] := by decide
    have h2 : "A" ∈ ([] : List String) := (hmem "A").mpr h1
    cases h2

/-- A concrete acyclic graph for the C3 witness: `A` has no prerequisites,
`B` requires `A`. -/
def g3 : List (String × List String) := [("A", []), ("B", ["A"])]

/-- Witness for C3 at the concrete graph `g3`, with the rank function
discharging the acyclicity hypothesis. -/
theorem c3_witness :
    ((keysG g3).Nodup) ∧
    (["A", "B"] ∈ allTopologicalOrders g3 ↔ validOrder g3 ["A", "B"]) :=
  ⟨by decide,
    (c3_all_topological_orders g3 (by decide) (by decide)
      (fun c => if c = "B" then 1 else 0) (by decide)).1 ["A", "B"]⟩

/-! ## Claim C9 — `generate_graduation_paths` (`graduation_paths_service.py` lines 74-125)

The service looks up the student's ENROLLED_IN degree; with no row it returns
the structured error dictionary.  Otherwise it computes
`missing = sorted(required - completed)`; when empty it returns the
`[["Already graduated"]]` sentinel, else it builds the prerequisite graph
over `missing` (`build_graph`, lines 18-29) and enumerates all orderings.
The route handler (`routes/graduation_paths.py`) returns the service result
directly as the 200 body; its 500 branch fires only if the service raises,
and the service is total. -/

namespace GraphDB

/-- `get_degree_requirements` of `degree_planner_service.py`:
`MATCH (c:Course)-[:REQUIRED_FOR]->(d:Degree {degree_id}) RETURN c.code`. -/
def degreeRequirements (db : GraphDB) (degree_id : String) : List String :=
  (db.requiredFor.filter (fun e => e.2 = degree_id)).map (fun e => e.1)

/-- `get_completed_courses` of `degree_planner_service.py` (no DISTINCT):
`MATCH (s:Student {student_id})-[:HAS_COMPLETED]->(c) RETURN c.code`. -/
def completedCoursesList (db : GraphDB) (student_id : String) : List String :=
  (db.hasCompleted.filter (fun e => e.1 = student_id)).map (fun e => e.2)

end GraphDB

/-- `build_graph` of `graduation_paths_service.py`:
`{c: set(get_direct_prereqs(c)) for c in courses}`. -/
def buildGraph (db : GraphDB) (courses : List String) : List (String × List String) :=
  courses.map (fun c => (c, dedupFirst (getDirectPrereqs db c)))

/-- Result dictionary of `generate_graduation_paths`; keys absent from a
given return are `none`. -/
structure GradPathsResult where
  error : Option String
  student_id : Option String
  degree_id : Option String
  missing_courses : Option (List String)
  paths : Option (List (List String))
deriving DecidableEq

/-- `generate_graduation_paths` of `graduation_paths_service.py`. -/
def generateGraduationPaths (db : GraphDB) (student_id : String) : GradPathsResult :=
  match (db.enrolledIn.filter (fun e => e.1 = student_id)).map (fun e => e.2) with
  | [] =>
    { error := some "Student not found", student_id := none, degree_id := none,
      missing_courses := none, paths := none }
  | d :: _ =>
    let missing := sortStrings ((dedupFirst (db.degreeRequirements d)).filter
      (fun c => decide (¬ c ∈ db.completedCoursesList student_id)))
    if missing = [] then
      { error := none, student_id := some student_id, degree_id := some d,
        missing_courses := none, paths := some [["Already graduated"]] }
    else
      { error := none, student_id := some student_id, degree_id := some d,
        missing_courses := some missing,
        paths := some (allTopologicalOrders (buildGraph db missing)) }

/-- Outcome of the graduation-paths HTTP handler. -/
inductive GradRouteResult where
  | ok (body : GradPathsResult)
  | httpError (status : Nat)
deriving DecidableEq

/-- Handler of GET `/api/students/{student_id}/paths/graduation`
(`routes/graduation_paths.py`): returns the service result as the 200 body
(the 500 branch fires only when the service raises; the service is total). -/
def routeGraduationPaths (db : GraphDB) (student_id : String) : GradRouteResult :=
  .ok (generateGraduationPaths db student_id)

/-- Claim C9: with no ENROLLED_IN degree the service returns the structured
`Student not found` payload, surfaced by the route as an HTTP 200 body (not
a 404); and when every required course is completed it returns the
`[["Already graduated"]]` sentinel path. -/
theorem c9_generate_graduation_paths (db : GraphDB) (sid : String) :
    (db.enrolledIn.filter (fun e => e.1 = sid) = [] →
       generateGraduationPaths db sid =
         { error := some "Student not found", student_id := none,
           degree_id := none, missing_courses := none, paths := none }) ∧
    (∀ d rest,
       (db.enrolledIn.filter (fun e => e.1 = sid)).map (fun e => e.2) = d :: rest →
       (∀ c ∈ db.degreeRequirements d, c ∈ db.completedCoursesList sid) →
       (generateGraduationPaths db sid).paths = some [["Already graduated"]] ∧
       (generateGraduationPaths db sid).error = none) ∧
    routeGraduationPaths db sid = .ok (generateGraduationPaths db sid) := by
  refine ⟨?_, ?_, rfl⟩
  · intro hfil
    rw [generateGraduationPaths, hfil]
    rfl
  · intro d rest hmap hdone
    have hmissing : (dedupFirst (db.degreeRequirements d)).filter
        (fun c => decide (¬ c ∈ db.completedCoursesList sid)) = [] := by
      apply List.filter_eq_nil_iff.mpr
      intro c hc
      have : c ∈ db.degreeRequirements d := (mem_dedupFirst _ c).mp hc
      simp [hdone c this]
    rw [generateGraduationPaths, hmap]
    simp only [hmissing]
    have hs : sortStrings ([] : List String) = [] := rfl
    rw [hs]
    simp

/-- A concrete database for the C9 witness: `S1` is enrolled in `DEG`, whose
single requirement `CS 101` the student has completed; `S404` exists
nowhere. -/
def db9 : GraphDB :=
  { courses := ["CS 101"]
    courseNames := []
    courseCredits := []
    prereqEdges := []
    students := ["S1"]
    studentsById := []
    hasCompleted := [("S1", "CS 101")]
    enrolledIn := [("S1", "DEG")]
    requiredFor := [("CS 101", "DEG")]
    offeredIn := [] }

/-- Witness for C9: the error payload for an unenrolled student id and the
`Already graduated` sentinel for a fully completed degree, both at `db9`. -/
theorem c9_witness :
    generateGraduationPaths db9 "S404" =
      { error := some "Student not found", student_id := none,
        degree_id := none, missing_courses := none, paths := none } ∧
    (generateGraduationPaths db9 "S1").paths = some [["Already graduated"]] :=
  ⟨(c9_generate_graduation_paths db9 "S404").1 (by decide),
   ((c9_generate_graduation_paths db9 "S1").2.1 "DEG" [] (by decide) (by decide)).1⟩

/-! ## Claims C6 and C7 — `_assign_courses_to_semesters`
(`schedule_optimizer_service.py` lines 250-321)

Per semester, the optimizer first collects `courses_to_consider`: the
not-yet-taken courses, in globally sorted order, offered this semester whose
prerequisites are all in `courses_taken` (initialised to the persisted
completed set) or in `completed`.  It then adds candidates greedily: it stops
at the course-count cap and skips (without deferring) any candidate that
would push the credit sum over the credit cap, marking each added course
taken immediately.  `ScheduleConstraints` (`models/schedule.py` lines 53-66)
documents `max_courses_per_semester` 1-8 (default 5) and
`max_credits_per_semester` 6-24 (default 18). -/

/-- Catalog entry produced by `_get_all_courses_with_prereqs`: name, credits
(defaulted to 3 when unset) and direct-prerequisite codes. -/
structure CourseData where
  name : String
  credits : Int
  prerequisites : List String
deriving DecidableEq

/-- `CourseInSchedule` of `models/schedule.py`. -/
structure CourseInSchedule where
  course_code : String
  course_name : String
  credits : Int
  prerequisites : List String
deriving DecidableEq

/-- One row of `_get_semester_offerings`: semester fields plus the codes
offered in it. -/
structure SemesterInfo where
  id : String
  name : String
  year : Int
  term : String
  order : Int
  courses : List String
deriving DecidableEq

/-- `SemesterSchedule` of `models/schedule.py`. -/
structure SemesterSchedule where
  semester_id : String
  semester_name : String
  year : Int
  term : String
  courses : List CourseInSchedule
  total_courses : Nat
  total_credits : Int
deriving DecidableEq

/-- `ScheduleConstraints` of `models/schedule.py`. -/
structure ScheduleConstraints where
  max_courses_per_semester : Int
  max_credits_per_semester : Int
  target_semesters : Int
  start_semester : String
deriving DecidableEq

/-- `courses[course_code]` on the catalog dict.  The Python dict lookup is
only ever reached for codes present in the catalog (the sorted list is built
from the catalog's keys); the default is never observed there. -/
def findCourseData (catalog : List (String × CourseData)) (code : String) : CourseData :=
  (((catalog.filter (fun e => e.1 = code)).map (fun e => e.2)).headD
    { name := "", credits := 3, prerequisites := [] })

/-- The `CourseInSchedule` record the optimizer builds when adding a course. -/
def mkScheduledCourse (catalog : List (String × CourseData)) (c : String) :
    CourseInSchedule :=
  { course_code := c
    course_name := (findCourseData catalog c).name
    credits := (findCourseData catalog c).credits
    prerequisites := (findCourseData catalog c).prerequisites }

/-- The candidate-collection loop: not yet taken, offered this semester, all
prerequisites in `courses_taken` or `completed`, scanned in the globally
sorted order. -/
def coursesToConsider (sortedCourses : List String) (catalog : List (String × CourseData))
    (taken completed offered : List String) : List String :=
  sortedCourses.filter (fun c =>
    decide (¬ c ∈ taken) && decide (c ∈ offered) &&
    (findCourseData catalog c).prerequisites.all
      (fun p => decide (p ∈ taken) || decide (p ∈ completed)))

/-- The greedy adding loop over the candidate list; state is
`(semester_courses, semester_credits, courses_taken)`. -/
def addCourses (cons : ScheduleConstraints) (catalog : List (String × CourseData)) :
    List String → List CourseInSchedule × Int × List String →
    List CourseInSchedule × Int × List String
  | [], st => st
  | c :: rest, (semC, semCr, taken) =>
    if (semC.length : Int) ≥ cons.max_courses_per_semester then
      (semC, semCr, taken)
    else if semCr + (findCourseData catalog c).credits > cons.max_credits_per_semester then
      addCourses cons catalog rest (semC, semCr, taken)
    else
      addCourses cons catalog rest
        (semC ++ [mkScheduledCourse catalog c],
         semCr + (findCourseData catalog c).credits, c :: taken)

/-- The semester iteration of `_assign_courses_to_semesters`. -/
def assignGo (cons : ScheduleConstraints) (catalog : List (String × CourseData))
    (sortedCourses completed : List String) :
    List SemesterInfo → List String → List SemesterSchedule
  | [], _ => []
  | sem :: rest, taken =>
    let st := addCourses cons catalog
      (coursesToConsider sortedCourses catalog taken completed sem.courses)
      ([], 0, taken)
    { semester_id := sem.id, semester_name := sem.name, year := sem.year,
      term := sem.term, courses := st.1, total_courses := st.1.length,
      total_credits := st.2.1 } :: assignGo cons catalog sortedCourses completed rest st.2.2

/-- `_assign_courses_to_semesters`: `courses_taken` starts as the persisted
completed set. -/
def assignCoursesToSemesters (cons : ScheduleConstraints)
    (catalog : List (String × CourseData)) (sortedCourses : List String)
    (semesters : List SemesterInfo) (completed : List String) :
    List SemesterSchedule :=
  assignGo cons catalog sortedCourses completed semesters completed

/-- Structural description of one run of the adding loop: it appends records
built from candidates and marks exactly their codes taken. -/
theorem addCourses_spec (cons : ScheduleConstraints)
    (catalog : List (String × CourseData)) :
    ∀ (cands : List String) (st : List CourseInSchedule × Int × List String),
      ∃ nw : List CourseInSchedule,
        (addCourses cons catalog cands st).1 = st.1 ++ nw ∧
        (∀ ci ∈ nw, ∃ c ∈ cands, ci = mkScheduledCourse catalog c) ∧
        (∀ x, x ∈ (addCourses cons catalog cands st).2.2 ↔
           x ∈ st.2.2 ∨ x ∈ nw.map (fun ci => ci.course_code)) := by
  intro cands
  induction cands with
  | nil =>
    intro st
    exact ⟨[], by simp [addCourses], by simp, by simp [addCourses]⟩
  | cons c rest ih =>
    rintro ⟨semC, semCr, taken⟩
    rw [addCourses]
    by_cases hbreak : (semC.length : Int) ≥ cons.max_courses_per_semester
    · rw [if_pos hbreak]
      exact ⟨[], by simp, by simp, by simp⟩
    · rw [if_neg hbreak]
      by_cases hskip : semCr + (findCourseData catalog c).credits >
          cons.max_credits_per_semester
      · rw [if_pos hskip]
        rcases ih (semC, semCr, taken) with ⟨nw, h1, h2, h3⟩
        refine ⟨nw, h1, ?_, h3⟩
        intro ci hci
        rcases h2 ci hci with ⟨c', hc', hcieq⟩
        exact ⟨c', List.mem_cons_of_mem _ hc', hcieq⟩
      · rw [if_neg hskip]
        rcases ih (semC ++ [mkScheduledCourse catalog c],
          semCr + (findCourseData catalog c).credits, c :: taken) with ⟨nw, h1, h2, h3⟩
        refine ⟨mkScheduledCourse catalog c :: nw, ?_, ?_, ?_⟩
        · rw [h1]
          simp
        · intro ci hci
          rcases List.mem_cons.mp hci with rfl | hci'
          · exact ⟨c, List.mem_cons_self _ _, rfl⟩
          · rcases h2 ci hci' with ⟨c', hc', hcieq⟩
            exact ⟨c', List.mem_cons_of_mem _ hc', hcieq⟩
        · intro x
          rw [h3 x]
          simp only [List.mem_cons, List.map_cons, mkScheduledCourse]
          tauto

/-- Credit sum of the courses assigned to a semester. -/
def sumCredits (l : List CourseInSchedule) : Int :=
  (l.map (fun c => c.credits)).sum

/-- The adding loop keeps the credit accumulator equal to the credit sum and
never lets the course count or the credit sum pass their caps. -/
theorem addCourses_bounds (cons : ScheduleConstraints)
    (catalog : List (String × CourseData)) :
    ∀ (cands : List String) (st : List CourseInSchedule × Int × List String),
      st.2.1 = sumCredits st.1 →
      (st.1.length : Int) ≤ cons.max_courses_per_semester →
      st.2.1 ≤ cons.max_credits_per_semester →
      ((addCourses cons catalog cands st).2.1 =
         sumCredits (addCourses cons catalog cands st).1 ∧
       ((addCourses cons catalog cands st).1.length : Int) ≤
         cons.max_courses_per_semester ∧
       (addCourses cons catalog cands st).2.1 ≤ cons.max_credits_per_semester) := by
  intro cands
  induction cands with
  | nil =>
    intro st hsum hlen hcr
    rw [addCourses]
    exact ⟨hsum, hlen, hcr⟩
  | cons c rest ih =>
    rintro ⟨semC, semCr, taken⟩ hsum hlen hcr
    rw [addCourses]
    by_cases hbreak : (semC.length : Int) ≥ cons.max_courses_per_semester
    · rw [if_pos hbreak]
      exact ⟨hsum, hlen, hcr⟩
    · rw [if_neg hbreak]
      by_cases hskip : semCr + (findCourseData catalog c).credits >
          cons.max_credits_per_semester
      · rw [if_pos hskip]
        exact ih (semC, semCr, taken) hsum hlen hcr
      · rw [if_neg hskip]
        apply ih
        · simp only [sumCredits, List.map_append, List.sum_append] at hsum ⊢
          simp [mkScheduledCourse, hsum]
        · simp only [List.length_append, List.length_singleton]
          push_cast
          simp only [not_le] at hbreak
          simp only at hlen ⊢
          omega
        · simp only [not_lt] at hskip
          exact hskip

/-- Claim C7, over the semester iteration: with the caps anywhere in their
documented valid ranges, every produced semester has at most
`max_courses_per_semester` courses and a credit sum (equal to its
`total_credits` field) of at most `max_credits_per_semester`. -/
theorem assignGo_caps (cons : ScheduleConstraints)
    (catalog : List (String × CourseData)) (sortedCourses completed : List String)
    (hc1 : 1 ≤ cons.max_courses_per_semester)
    (hr1 : 6 ≤ cons.max_credits_per_semester) :
    ∀ (semesters : List SemesterInfo) (taken : List String),
      ∀ sem ∈ assignGo cons catalog sortedCourses completed semesters taken,
        (sem.total_courses : Int) ≤ cons.max_courses_per_semester ∧
        sumCredits sem.courses ≤ cons.max_credits_per_semester ∧
        sem.total_credits = sumCredits sem.courses := by
  intro semesters
  induction semesters with
  | nil =>
    intro taken sem hsem
    simp [assignGo] at hsem
  | cons s rest ih =>
    intro taken sem hsem
    simp only [assignGo] at hsem
    have hb := addCourses_bounds cons catalog
      (coursesToConsider sortedCourses catalog taken completed s.courses)
      ([], 0, taken) (by simp [sumCredits]) (by simp; omega) (by simp; omega)
    rcases List.mem_cons.mp hsem with rfl | htail
    · refine ⟨?_, ?_, ?_⟩
      · simpa using hb.2.1
      · rw [← hb.1]
        exact hb.2.2
      · exact hb.1
    · exact ih _ sem htail

/-- Claim C7: in every schedule the optimizer assigns, each semester's course
count stays within `max_courses_per_semester` and its credit sum (reported in
`total_credits`) stays within `max_credits_per_semester`, whenever the caps
are within their documented valid ranges (1-8 and 6-24). -/
theorem c7_semester_caps (cons : ScheduleConstraints)
    (catalog : List (String × CourseData)) (sortedCourses : List String)
    (semesters : List SemesterInfo) (completed : List String)
    (hc1 : 1 ≤ cons.max_courses_per_semester)
    (hc2 : cons.max_courses_per_semester ≤ 8)
    (hr1 : 6 ≤ cons.max_credits_per_semester)
    (hr2 : cons.max_credits_per_semester ≤ 24) :
    ∀ sem ∈ assignCoursesToSemesters cons catalog sortedCourses semesters completed,
      (sem.total_courses : Int) ≤ cons.max_courses_per_semester ∧
      sumCredits sem.courses ≤ cons.max_credits_per_semester ∧
      sem.total_credits = sumCredits sem.courses :=
  assignGo_caps cons catalog sortedCourses completed hc1 hr1 semesters completed

/-- Claim C6, over the semester iteration: every assigned course's direct
prerequisites are in the running taken-set at the semester's start, in the
persisted completed set, or assigned in a strictly earlier semester. -/
theorem assignGo_prereqs (cons : ScheduleConstraints)
    (catalog : List (String × CourseData)) (sortedCourses completed : List String) :
    ∀ (semesters : List SemesterInfo) (taken : List String),
      ∀ i (hi : i < (assignGo cons catalog sortedCourses completed semesters taken).length)
        ci, ci ∈ ((assignGo cons catalog sortedCourses completed semesters taken).get
            ⟨i, hi⟩).courses →
        ∀ p ∈ ci.prerequisites,
          p ∈ taken ∨ p ∈ completed ∨
          ∃ j, ∃ hj : j < i, ∃ cj,
            cj ∈ ((assignGo cons catalog sortedCourses completed semesters taken).get
              ⟨j, Nat.lt_trans hj hi⟩).courses ∧ cj.course_code = p := by
  intro semesters
  induction semesters with
  | nil =>
    intro taken i hi
    simp [assignGo] at hi
  | cons s rest ih =>
    intro taken i hi ci hci p hp
    rcases addCourses_spec cons catalog
      (coursesToConsider sortedCourses catalog taken completed s.courses)
      ([], 0, taken) with ⟨nw, h1, h2, h3⟩
    simp only [List.nil_append] at h1
    cases i with
    | zero =>
      have hci' : ci ∈ nw := by
        have : ci ∈ (addCourses cons catalog
            (coursesToConsider sortedCourses catalog taken completed s.courses)
            ([], 0, taken)).1 := hci
        rwa [h1] at this
      rcases h2 ci hci' with ⟨c, hc, rfl⟩
      have hcand := List.mem_filter.mp hc
      have hall := hcand.2
      simp only [Bool.and_eq_true, List.all_eq_true, Bool.or_eq_true,
        decide_eq_true_eq] at hall
      have hpp : p ∈ (findCourseData catalog c).prerequisites := hp
      rcases hall.2 p hpp with h | h
      · exact Or.inl h
      · exact Or.inr (Or.inl h)
    | succ j =>
      have hi' : j < (assignGo cons catalog sortedCourses completed rest
          (addCourses cons catalog
            (coursesToConsider sortedCourses catalog taken completed s.courses)
            ([], 0, taken)).2.2).length := by
        simpa [assignGo] using hi
      have hci' : ci ∈ ((assignGo cons catalog sortedCourses completed rest
          (addCourses cons catalog
            (coursesToConsider sortedCourses catalog taken completed s.courses)
            ([], 0, taken)).2.2).get ⟨j, hi'⟩).courses := hci
      rcases ih _ j hi' ci hci' p hp with hpt | hpc | ⟨k, hk, cj, hcj, hcode⟩
      · rcases (h3 p).mp hpt with hpt' | hpnw
        · exact Or.inl hpt'
        · rcases List.mem_map.mp hpnw with ⟨cj, hcjnw, hcode⟩
          refine Or.inr (Or.inr ⟨0, Nat.succ_pos _, cj, ?_, hcode⟩)
          show cj ∈ (addCourses cons catalog
            (coursesToConsider sortedCourses catalog taken completed s.courses)
            ([], 0, taken)).1
          rw [h1]
          exact hcjnw
      · exact Or.inr (Or.inl hpc)
      · exact Or.inr (Or.inr ⟨k + 1, Nat.succ_lt_succ hk, cj, hcj, hcode⟩)

/-- Claim C6: in every schedule the optimizer assigns, each course placed in
semester `i` has every direct prerequisite either in the student's persisted
completed set or placed in a semester strictly before `i`. -/
theorem c6_prereqs_strictly_before (cons : ScheduleConstraints)
    (catalog : List (String × CourseData)) (sortedCourses : List String)
    (semesters : List SemesterInfo) (completed : List String) :
    ∀ i (hi : i <
        (assignCoursesToSemesters cons catalog sortedCourses semesters completed).length)
      ci, ci ∈ ((assignCoursesToSemesters cons catalog sortedCourses semesters
          completed).get ⟨i, hi⟩).courses →
      ∀ p ∈ ci.prerequisites,
        p ∈ completed ∨
        ∃ j, ∃ hj : j < i, ∃ cj,
          cj ∈ ((assignCoursesToSemesters cons catalog sortedCourses semesters
            completed).get ⟨j, Nat.lt_trans hj hi⟩).courses ∧ cj.course_code = p := by
  intro i hi ci hci p hp
  rcases assignGo_prereqs cons catalog sortedCourses completed semesters completed
    i hi ci hci p hp with h | h | h
  · exact Or.inl h
  · exact Or.inl h
  · exact Or.inr h

theorem get_zero_eq_headD {α : Type} (l : List α) (h : 0 < l.length) (d : α) :
    l.get ⟨0, h⟩ = l.headD d := by
  cases l with
  | nil => exact absurd h (Nat.lt_irrefl 0)
  | cons x xs => rfl

/-- A concrete catalog and semesters for the optimizer witnesses:
`CS 102` requires `CS 101`; `CS 101` is offered in Fall 2024 and `CS 102`
in Spring 2025. -/
def catalog67 : List (String × CourseData) :=
  [("CS 101", { name := "Intro", credits := 3, prerequisites := [] }),
   ("CS 102", { name := "Data Structures", credits := 3, prerequisites := ["CS 101"] })]

def semA : SemesterInfo :=
  { id := "FALL_2024", name := "Fall 2024", year := 2024, term := "Fall",
    order := 1, courses := ["CS 101"] }

def semB : SemesterInfo :=
  { id := "SPRING_2025", name := "Spring 2025", year := 2025, term := "Spring",
    order := 2, courses := ["CS 102"] }

/-- Default `ScheduleConstraints` (5 courses, 18 credits, 8 semesters). -/
def cons67 : ScheduleConstraints :=
  { max_courses_per_semester := 5, max_credits_per_semester := 18,
    target_semesters := 8, start_semester := "FALL_2024" }

/-- Witness for C6: `CS 102` lands in the second semester and the theorem
places its prerequisite `CS 101` in the strictly earlier first semester. -/
theorem c6_witness :
    ∃ cj, cj ∈ ((assignCoursesToSemesters cons67 catalog67 ["CS 101", "CS 102"]
        [semA, semB] []).headD
        { semester_id := "", semester_name := "", year := 0, term := "",
          courses := [], total_courses := 0, total_credits := 0 }).courses ∧
      cj.course_code = "CS 101" := by
  rcases c6_prereqs_strictly_before cons67 catalog67 ["CS 101", "CS 102"]
      [semA, semB] [] 1 (by decide) (mkScheduledCourse catalog67 "CS 102")
      (by decide) "CS 101" (by decide) with h | ⟨j, hj, cj, hcj, hcode⟩
  · cases h
  · have hj0 : j = 0 := by omega
    subst hj0
    refine ⟨cj, ?_, hcode⟩
    rw [← get_zero_eq_headD (assignCoursesToSemesters cons67 catalog67
      ["CS 101", "CS 102"] [semA, semB] []) (by decide)]
    exact hcj

/-- Witness for C7 at the default constraints, reading off the first
semester's caps. -/
theorem c7_witness :
    (1 ≤ cons67.max_courses_per_semester ∧ cons67.max_credits_per_semester ≤ 24) ∧
    (((assignCoursesToSemesters cons67 catalog67 ["CS 101", "CS 102"]
        [semA, semB] []).headD
        { semester_id := "", semester_name := "", year := 0, term := "",
          courses := [], total_courses := 0, total_credits := 0 }).total_courses : Int) ≤
      cons67.max_courses_per_semester ∧
    sumCredits ((assignCoursesToSemesters cons67 catalog67 ["CS 101", "CS 102"]
        [semA, semB] []).headD
        { semester_id := "", semester_name := "", year := 0, term := "",
          courses := [], total_courses := 0, total_credits := 0 }).courses ≤
      cons67.max_credits_per_semester :=
  ⟨⟨by decide, by decide⟩,
    (c7_semester_caps cons67 catalog67 ["CS 101", "CS 102"] [semA, semB] []
      (by decide) (by decide) (by decide) (by decide) _ (by decide)).1,
    (c7_semester_caps cons67 catalog67 ["CS 101", "CS 102"] [semA, semB] []
      (by decide) (by decide) (by decide) (by decide) _ (by decide)).2.1⟩

/-! ## Claim C10 — `_topological_sort` and `_build_prereq_graph`
(`schedule_optimizer_service.py` lines 172-248)

Kahn's algorithm over the uncompleted-course catalog: in-degree of a course
is the count of its uncompleted, in-catalog prerequisites; the queue starts
with the zero-in-degree courses in catalog order; popping a course decrements
its dependents, enqueueing any that reach zero.  If the sort is shorter than
the catalog (a cycle), the leftover courses are appended at the end.  The
loop is embedded with a fuel argument: each iteration appends a fresh catalog
key to the sorted list (the invariant proved below), so at most
`len(courses)` iterations run and the supplied fuel is never exhausted.
Python's set-iteration order for dependents and leftovers is unspecified;
the embedding fixes catalog order, and the permutation property proved here
is independent of that choice. -/

/-- `_build_prereq_graph`: maps each uncompleted, in-catalog prerequisite to
the set of courses that depend on it (the dependents of anything else are
empty, as in the defaultdict). -/
def buildPrereqGraph (catalog : List (String × CourseData)) (completed : List String) :
    String → List String :=
  fun p =>
    if ¬ p ∈ completed ∧ p ∈ catalog.map Prod.fst then
      (catalog.filter (fun cd => decide (p ∈ cd.2.prerequisites))).map (fun cd => cd.1)
    else []

/-- The in-degree map after the initialisation loop: the number of
uncompleted, in-catalog prerequisites of each catalog course (0 for
non-catalog codes, as in the defaultdict). -/
def initInDegree (catalog : List (String × CourseData)) (completed : List String) :
    String → Int :=
  fun c => ((findCourseData catalog c).prerequisites.filter
    (fun p => decide (¬ p ∈ completed) && decide (p ∈ catalog.map Prod.fst))).length

/-- Pointwise update of the in-degree map (`in_degree[dependent] -= 1`). -/
def updateFn (f : String → Int) (x : String) (v : Int) : String → Int :=
  fun y => if y = x then v else f y

/-- The inner `for dependent in graph[course]` loop: decrement each
dependent, enqueueing it when its in-degree reaches zero. -/
def decrementDeps : List String → (String → Int) × List String →
    (String → Int) × List String
  | [], st => st
  | d :: ds, (indeg, queue) =>
    decrementDeps ds
      (updateFn indeg d (indeg d - 1),
       if indeg d - 1 = 0 then queue ++ [d] else queue)

/-- The `while queue` loop of `_topological_sort`. -/
def kahnLoop (graph : String → List String) :
    Nat → (String → Int) → List String → List String → List String
  | 0, _, _, sorted => sorted
  | _ + 1, _, [], sorted => sorted
  | fuel + 1, indeg, c :: qs, sorted =>
    kahnLoop graph fuel
      (decrementDeps (graph c) (indeg, qs)).1
      (decrementDeps (graph c) (indeg, qs)).2
      (sorted ++ [c])

/-- `_topological_sort`, leftover (cyclic) courses appended at the end. -/
def topologicalSortKahn (catalog : List (String × CourseData))
    (completed : List String) : List String :=
  let keys := catalog.map Prod.fst
  let sorted := kahnLoop (buildPrereqGraph catalog completed) (keys.length + 1)
    (initInDegree catalog completed)
    (keys.filter (fun c => decide (initInDegree catalog completed c = 0))) []
  if sorted.length ≠ catalog.length then
    sorted ++ keys.filter (fun c => decide (¬ c ∈ sorted))
  else sorted

theorem buildPrereqGraph_subset (catalog : List (String × CourseData))
    (completed : List String) (p : String) :
    ∀ x ∈ buildPrereqGraph catalog completed p, x ∈ catalog.map Prod.fst := by
  intro x hx
  rw [buildPrereqGraph] at hx
  split at hx
  · rcases List.mem_map.mp hx with ⟨cd, hcd, rfl⟩
    exact List.mem_map.mpr ⟨cd, (List.mem_filter.mp hcd).1, rfl⟩
  · cases hx

/-- The decrement loop preserves the queue invariant: appending `sorted'`,
the combined list stays duplicate-free, inside the key set, and of
non-positive tracked in-degree (a course is enqueued only as its in-degree
becomes exactly zero, so it cannot already be queued or sorted). -/
theorem decrementDeps_inv (keys sorted' : List String) :
    ∀ (deps : List String) (indeg : String → Int) (queue : List String),
      (∀ x ∈ deps, x ∈ keys) →
      (sorted' ++ queue).Nodup →
      (∀ x ∈ sorted' ++ queue, x ∈ keys) →
      (∀ x ∈ sorted' ++ queue, indeg x ≤ 0) →
      ((sorted' ++ (decrementDeps deps (indeg, queue)).2).Nodup ∧
       (∀ x ∈ sorted' ++ (decrementDeps deps (indeg, queue)).2, x ∈ keys) ∧
       (∀ x ∈ sorted' ++ (decrementDeps deps (indeg, queue)).2,
          (decrementDeps deps (indeg, queue)).1 x ≤ 0)) := by
  intro deps
  induction deps with
  | nil =>
    intro indeg queue _ hnd hkeys hneg
    exact ⟨hnd, hkeys, hneg⟩
  | cons d ds ih =>
    intro indeg queue hdep hnd hkeys hneg
    rw [decrementDeps]
    by_cases hv : indeg d - 1 = 0
    · rw [if_pos hv]
      have hd1 : indeg d = 1 := by omega
      have hdfresh : ¬ d ∈ sorted' ++ queue := by
        intro hmem
        have := hneg d hmem
        omega
      apply ih
      · intro x hx
        exact hdep x (List.mem_cons_of_mem _ hx)
      · rw [← List.append_assoc]
        exact List.nodup_append.mpr ⟨hnd, List.nodup_singleton _,
          fun x hx hx1 => hdfresh ((List.mem_singleton.mp hx1) ▸ hx)⟩
      · intro x hx
        rw [← List.append_assoc] at hx
        rcases List.mem_append.mp hx with hx' | hx1
        · exact hkeys x hx'
        · exact (List.mem_singleton.mp hx1) ▸ hdep d (List.mem_cons_self _ _)
      · intro x hx
        rw [updateFn]
        by_cases hxd : x = d
        · rw [if_pos hxd]
          omega
        · rw [if_neg hxd]
          rw [← List.append_assoc] at hx
          rcases List.mem_append.mp hx with hx' | hx1
          · exact hneg x hx'
          · exact absurd (List.mem_singleton.mp hx1) hxd
    · rw [if_neg hv]
      apply ih
      · intro x hx
        exact hdep x (List.mem_cons_of_mem _ hx)
      · exact hnd
      · exact hkeys
      · intro x hx
        rw [updateFn]
        by_cases hxd : x = d
        · rw [if_pos hxd]
          have := hneg d (hxd ▸ hx)
          omega
        · rw [if_neg hxd]
          exact hneg x hx

/-- The Kahn loop emits a duplicate-free list of catalog keys. -/
theorem kahnLoop_nodup_subset (keys : List String) (graph : String → List String)
    (hg : ∀ c, ∀ x ∈ graph c, x ∈ keys) :
    ∀ fuel (indeg : String → Int) (queue sorted : List String),
      (sorted ++ queue).Nodup →
      (∀ x ∈ sorted ++ queue, x ∈ keys) →
      (∀ x ∈ sorted ++ queue, indeg x ≤ 0) →
      ((kahnLoop graph fuel indeg queue sorted).Nodup ∧
       ∀ x ∈ kahnLoop graph fuel indeg queue sorted, x ∈ keys) := by
  intro fuel
  induction fuel with
  | zero =>
    intro indeg queue sorted hnd hkeys _
    rw [kahnLoop]
    refine ⟨(List.nodup_append.mp hnd).1, ?_⟩
    intro x hx
    exact hkeys x (List.mem_append.mpr (Or.inl hx))
  | succ fuel ih =>
    intro indeg queue sorted hnd hkeys hneg
    cases queue with
    | nil =>
      rw [kahnLoop]
      refine ⟨(List.nodup_append.mp hnd).1, ?_⟩
      intro x hx
      exact hkeys x (List.mem_append.mpr (Or.inl hx))
    | cons c qs =>
      rw [kahnLoop]
      have hshift : sorted ++ c :: qs = (sorted ++ [c]) ++ qs := by
        simp
      rw [hshift] at hnd hkeys hneg
      have hdec := decrementDeps_inv keys (sorted ++ [c]) (graph c) indeg qs
        (hg c) hnd hkeys hneg
      exact ih _ _ _ hdec.1 hdec.2.1 hdec.2.2

/-- Claim C10: for any uncompleted-course catalog with distinct codes and any
completed list, `_topological_sort` over `_build_prereq_graph` returns a
permutation of the catalog's course set — each course exactly once — whether
or not the prerequisite relation contains cycles. -/
theorem c10_topological_sort_perm (catalog : List (String × CourseData))
    (completed : List String) (hnd : (catalog.map Prod.fst).Nodup) :
    (topologicalSortKahn catalog completed).Perm (catalog.map Prod.fst) := by
  rw [topologicalSortKahn]
  have hq0nd : (([] : List String) ++
      ((catalog.map Prod.fst).filter
        (fun c => decide (initInDegree catalog completed c = 0)))).Nodup := by
    simpa using hnd.filter _
  have hq0keys : ∀ x ∈ ([] : List String) ++
      ((catalog.map Prod.fst).filter
        (fun c => decide (initInDegree catalog completed c = 0))), x ∈ catalog.map Prod.fst := by
    intro x hx
    simp only [List.nil_append] at hx
    exact (List.mem_filter.mp hx).1
  have hq0neg : ∀ x ∈ ([] : List String) ++
      ((catalog.map Prod.fst).filter
        (fun c => decide (initInDegree catalog completed c = 0))),
      initInDegree catalog completed x ≤ 0 := by
    intro x hx
    simp only [List.nil_append] at hx
    have := (List.mem_filter.mp hx).2
    simp only [decide_eq_true_eq] at this
    omega
  have hkahn := kahnLoop_nodup_subset (catalog.map Prod.fst)
    (buildPrereqGraph catalog completed)
    (fun c => buildPrereqGraph_subset catalog completed c)
    ((catalog.map Prod.fst).length + 1)
    (initInDegree catalog completed)
    ((catalog.map Prod.fst).filter
      (fun c => decide (initInDegree catalog completed c = 0)))
    [] hq0nd hq0keys hq0neg
  set sorted := kahnLoop (buildPrereqGraph catalog completed)
    ((catalog.map Prod.fst).length + 1)
    (initInDegree catalog completed)
    ((catalog.map Prod.fst).filter
      (fun c => decide (initInDegree catalog completed c = 0))) [] with hsorted
  obtain ⟨hsnd, hskeys⟩ := hkahn
  by_cases hlen : sorted.length ≠ catalog.length
  · rw [if_pos hlen]
    have hresnd : (sorted ++ (catalog.map Prod.fst).filter
        (fun c => decide (¬ c ∈ sorted))).Nodup := by
      refine List.nodup_append.mpr ⟨hsnd, hnd.filter _, ?_⟩
      intro x hx hx'
      have := (List.mem_filter.mp hx').2
      simp only [decide_eq_true_eq] at this
      exact this hx
    have hresmem : ∀ x, x ∈ sorted ++ (catalog.map Prod.fst).filter
        (fun c => decide (¬ c ∈ sorted)) ↔ x ∈ catalog.map Prod.fst := by
      intro x
      constructor
      · intro hx
        rcases List.mem_append.mp hx with hx' | hx'
        · exact hskeys x hx'
        · exact (List.mem_filter.mp hx').1
      · intro hx
        by_cases hxs : x ∈ sorted
        · exact List.mem_append.mpr (Or.inl hxs)
        · exact List.mem_append.mpr (Or.inr (List.mem_filter.mpr ⟨hx, by simpa using hxs⟩))
    exact (hresnd.subperm (fun x hx => (hresmem x).mp hx)).antisymm
      (hnd.subperm (fun x hx => (hresmem x).mpr hx))
  · rw [if_neg hlen]
    push_neg at hlen
    rcases hsnd.subperm hskeys with ⟨l', hperm, hsl⟩
    have hlen' : l'.length = (catalog.map Prod.fst).length := by
      rw [hperm.length_eq, hlen, List.length_map]
    have : l' = catalog.map Prod.fst := hsl.eq_of_length hlen'
    rw [← this]
    exact hperm.symm

/-- A concrete cyclic catalog: `A` and `B` require each other, `C` is free. -/
def catalog10 : List (String × CourseData) :=
  [("A", { name := "A", credits := 3, prerequisites := ["B"] }),
   ("B", { name := "B", credits := 3, prerequisites := ["A"] }),
   ("C", { name := "C", credits := 3, prerequisites := [] })]

/-- Witness for C10 on the cyclic catalog with nothing completed. -/
theorem c10_witness :
    (catalog10.map Prod.fst).Nodup ∧
    (topologicalSortKahn catalog10 []).Perm (catalog10.map Prod.fst) :=
  ⟨by decide, c10_topological_sort_perm catalog10 [] (by decide)⟩

/-! ## Claim C8 — `get_next_courses_with_analysis`
(`advanced_queries_service.py` lines 106-241)

One Cypher query per student/semester: for each course offered in the target
semester and not completed, it collects the transitive prerequisite set
(`*1..`, DISTINCT), the missing subset, the direct-prerequisite breakdown,
and the courses that would be unlocked (`*1..2` inbound, DISTINCT), computes

    CASE WHEN size(missing) = 0 THEN 100
         WHEN size(all_prereq_codes) = 0 THEN 100
         ELSE toInteger(100.0 * (size(all) - size(missing)) / size(all)) END

(`toInteger` truncates toward zero), keeps rows with score >= 50 and orders
by score descending then course code.  Unbounded `*1..` reachability is the
set of nodes reachable by any forward walk; every such walk contains a simple
path, whose length is at most the number of stored edges, so iterating to
that depth computes the same set.  The placeholder all-null analysis entry
the query emits for a course with no direct prerequisites is abstracted away
here: the claim does not reference `prerequisite_analysis`. -/

namespace GraphDB

/-- Completed courses of a student matched by the `id` property
(`collect(DISTINCT completed.code)`). -/
def completedById (db : GraphDB) (student_id : String) : List String :=
  dedupFirst ((db.hasCompleted.filter (fun e => e.1 = student_id)).map (fun e => e.2))

/-- All transitive prerequisites: `(c)-[:PRE_REQUIRES*1..]->(p)`, DISTINCT. -/
def reachAll (db : GraphDB) (start : String) : List String :=
  db.reachTo start db.prereqEdges.length

/-- `c.name` as an optional property. -/
def courseName (db : GraphDB) (c : String) : Option String :=
  ((db.courseNames.filter (fun e => e.1 = c)).map (fun e => e.2)).head?

/-- `c.credits` as an optional property. -/
def creditsOf (db : GraphDB) (c : String) : Option Int :=
  ((db.courseCredits.filter (fun e => e.1 = c)).map (fun e => e.2)).head?

end GraphDB

/-- One row of the next-courses analysis response. -/
structure NextCourseRow where
  course_code : String
  course_name : Option String
  credits : Option Int
  readiness_score : Int
  can_take_now : Bool
  missing_prerequisites : List String
  prerequisite_analysis : List (String × Bool)
  unlocks_count : Nat
  sample_unlocked_courses : List String
deriving DecidableEq

/-- The query's readiness-score CASE expression: 100 when nothing is missing
or there are no prerequisites at all, else the truncation of
`100 * (total - missing) / total` (non-negative, so truncation is Nat
division). -/
def scoreFormula (total missing : Nat) : Int :=
  if missing = 0 then 100
  else if total = 0 then 100
  else Int.ofNat ((100 * (total - missing)) / total)

/-- The per-course row of the query. -/
def mkNextCourseRow (db : GraphDB) (completed : List String) (c : String) :
    NextCourseRow :=
  { course_code := c
    course_name := db.courseName c
    credits := db.creditsOf c
    readiness_score :=
      scoreFormula (db.reachAll c).length
        ((db.reachAll c).filter (fun p => decide (¬ p ∈ completed))).length
    can_take_now :=
      decide (((db.reachAll c).filter (fun p => decide (¬ p ∈ completed))).length = 0)
    missing_prerequisites :=
      (db.reachAll c).filter (fun p => decide (¬ p ∈ completed))
    prerequisite_analysis :=
      (db.succs c).map (fun p => (p, decide (p ∈ completed)))
    unlocks_count :=
      (dedupFirst (db.preds c ++ (db.preds c).flatMap (fun x => db.preds x))).length
    sample_unlocked_courses :=
      (dedupFirst (db.preds c ++ (db.preds c).flatMap (fun x => db.preds x))).take 5 }

/-- `ORDER BY readiness_score DESC, course_code`. -/
def rowLe (a b : NextCourseRow) : Bool :=
  decide (b.readiness_score < a.readiness_score) ||
  (decide (a.readiness_score = b.readiness_score) && strLe a.course_code b.course_code)

theorem rowLe_trans :
    ∀ a b c, rowLe a b = true → rowLe b c = true → rowLe a c = true := by
  intro a b c hab hbc
  simp only [rowLe, Bool.or_eq_true, Bool.and_eq_true, decide_eq_true_eq] at hab hbc ⊢
  rcases hab with h1 | ⟨h1, h1'⟩ <;> rcases hbc with h2 | ⟨h2, h2'⟩
  · left; omega
  · left; omega
  · left; omega
  · right; exact ⟨by omega, strLe_trans h1' h2'⟩

theorem rowLe_total : ∀ a b, rowLe a b = true ∨ rowLe b a = true := by
  intro a b
  simp only [rowLe, Bool.or_eq_true, Bool.and_eq_true, decide_eq_true_eq]
  by_cases h : b.readiness_score < a.readiness_score
  · exact Or.inl (Or.inl h)
  · by_cases h' : a.readiness_score < b.readiness_score
    · exact Or.inr (Or.inl h')
    · have heq : a.readiness_score = b.readiness_score := by omega
      rcases strLe_total a.course_code b.course_code with hs | hs
      · exact Or.inl (Or.inr ⟨heq, hs⟩)
      · exact Or.inr (Or.inr ⟨heq.symm, hs⟩)

/-- `get_next_courses_with_analysis`: no student node matched by `id` means
no rows; otherwise one row per offered-and-not-completed course, filtered to
score >= 50 and sorted by score descending then course code. -/
def getNextCoursesWithAnalysis (db : GraphDB) (student_id semester_id : String) :
    List NextCourseRow :=
  if student_id ∈ db.studentsById then
    sortBy rowLe
      (((((db.offeredIn.filter (fun e => e.2 = semester_id)).map (fun e => e.1)).filter
          (fun c => decide (¬ c ∈ db.completedById student_id))).map
        (mkNextCourseRow db (db.completedById student_id))).filter
        (fun r => decide (50 ≤ r.readiness_score)))
  else []

/-- Claim C8 (amended): every returned course's readiness score is 100 when
it has no missing or no transitive prerequisites and otherwise the truncation
of `100 * (total - missing) / total`; only scores of at least 50 are
returned; the rows are sorted by score descending then course code; and
every offered, uncompleted course reaching score 50 appears. -/
theorem c8_next_courses_analysis (db : GraphDB) (sid semId : String) :
    (∀ row ∈ getNextCoursesWithAnalysis db sid semId,
       row.readiness_score =
         scoreFormula (db.reachAll row.course_code).length
           ((db.reachAll row.course_code).filter
             (fun p => decide (¬ p ∈ db.completedById sid))).length ∧
       50 ≤ row.readiness_score) ∧
    (getNextCoursesWithAnalysis db sid semId).Pairwise
      (fun a b => rowLe a b = true) ∧
    (sid ∈ db.studentsById →
      ∀ c ∈ (db.offeredIn.filter (fun e => e.2 = semId)).map (fun e => e.1),
        ¬ c ∈ db.completedById sid →
        50 ≤ scoreFormula (db.reachAll c).length
          ((db.reachAll c).filter
            (fun p => decide (¬ p ∈ db.completedById sid))).length →
        ∃ row ∈ getNextCoursesWithAnalysis db sid semId, row.course_code = c) := by
  refine ⟨?_, ?_, ?_⟩
  · intro row hrow
    rw [getNextCoursesWithAnalysis] at hrow
    split at hrow
    · rw [mem_sortBy] at hrow
      rcases List.mem_filter.mp hrow with ⟨hrows, hscore⟩
      rcases List.mem_map.mp hrows with ⟨c, _, rfl⟩
      refine ⟨rfl, ?_⟩
      simpa using hscore
    · cases hrow
  · rw [getNextCoursesWithAnalysis]
    split
    · exact sorted_sortBy rowLe rowLe_trans rowLe_total _
    · exact List.Pairwise.nil
  · intro hsid c hc hnc hscore
    refine ⟨mkNextCourseRow db (db.completedById sid) c, ?_, rfl⟩
    rw [getNextCoursesWithAnalysis, if_pos hsid, mem_sortBy]
    apply List.mem_filter.mpr
    constructor
    · exact List.mem_map.mpr ⟨c, List.mem_filter.mpr ⟨hc, by simpa using hnc⟩, rfl⟩
    · simp only [mkNextCourseRow, decide_eq_true_eq]
      simpa using hscore

/-- The rounding interpretation of the score the claim asserts:
`round(100 * (total - missing) / total)` (half rounds up; the counterexample
input is far from a half so any rounding convention agrees). -/
def roundScoreFormula (total missing : Nat) : Int :=
  if missing = 0 then 100
  else if total = 0 then 100
  else Int.ofNat ((200 * (total - missing) + total) / (2 * total))

/-- Concrete database for the C8 counterexample: `X` has the prerequisite
chain `X -> P1 -> P2 -> P3` (3 transitive prerequisites), student `ST` has
completed `P1` and `P2` (1 missing), and `X` is offered in `S1`. -/
def db8 : GraphDB :=
  { courses := ["X", "P1", "P2", "P3"]
    courseNames := []
    courseCredits := []
    prereqEdges := [("X", "P1"), ("P1", "P2"), ("P2", "P3")]
    students := []
    studentsById := ["ST"]
    hasCompleted := [("ST", "P1"), ("ST", "P2")]
    enrolledIn := []
    requiredFor := []
    offeredIn := [("X", "S1")] }

/-- Counterexample for C8 as stated: with 3 transitive prerequisites and 1
missing, the code's truncation yields 66, while the claimed
`round(100 * 2/3)` is 67. -/
theorem c8_counterexample :
    (getNextCoursesWithAnalysis db8 "ST" "S1").map
      (fun r => (r.course_code, r.readiness_score)) = [("X", 66)] ∧
    roundScoreFormula 3 1 = 67 ∧
    scoreFormula 3 1 = 66 := by
  refine ⟨by decide, by decide, by decide⟩

/-- Witness for the amended C8 at `db8`: `X` is offered, uncompleted and
scores at least 50, so it appears in the result. -/
theorem c8_witness :
    ("ST" ∈ db8.studentsById) ∧
    (∃ row ∈ getNextCoursesWithAnalysis db8 "ST" "S1", row.course_code = "X") :=
  ⟨by decide,
    (c8_next_courses_analysis db8 "ST" "S1").2.2 (by decide) "X"
      (by decide) (by decide) (by decide)⟩
